import Mathlib

/-!
# NebulusChain core: shallow embedding and verification

A shallow embedding of the NebulusChain core (TypeScript sources under
`src/core`): the block / chain data structure with its proof-of-work
mining loop (`block.ts`), the pending-transaction pool and batch miner,
chain validation and import of externally mined blocks (`blockchain.ts`),
the asset ledger with mint / transfer / burn and balance replay
(`asset.ts`), and the peer layer's consensus tally and peer-set
bookkeeping (`identity.ts`).

Modelling conventions:
* SHA-256 (`hashData`), `JSON.stringify`, and the identity's `sign` are
  external primitives; the development is parametrised over them by an
  `Env` record of opaque string functions.
* JavaScript numbers used for amounts / supplies are embedded as exact
  rationals (`ℚ`); timestamps as `Int`.
* JavaScript `Map`s holding balances are embedded as total functions with
  default `0`, which is extensionally what `map.get(k) || 0` provides.
* The unbounded `while` loop of `mineBlock` is embedded with explicit
  fuel; `none` means the loop has not yet terminated within the fuel.
* Disk persistence (`saveBlock` / `saveAsset`) is embedded as explicit
  state components, so "nothing was written" is a provable statement.
-/

namespace Nebulus

/-- The `Signature` from `block.ts`: `{publicKey, signature}`. -/
structure Sig where
  publicKey : String
  sig : String
  deriving DecidableEq, Repr

/-- The `AssetTransaction.type` from `asset.ts`: `'mint' | 'transfer' | 'burn'`. -/
inductive AssetTxType where
  | mint
  | transfer
  | burn
  deriving DecidableEq, Repr

/-- The `AssetTransaction` from `asset.ts`. `from` is empty for mint, `to`
empty for burn; `amount` is a JS number, embedded as `ℚ`. -/
structure AssetTransaction where
  txType : AssetTxType
  assetId : String
  fromAddr : String
  toAddr : String
  amount : ℚ
  timestamp : Int
  sig : Option String
  deriving DecidableEq, Repr

/-- The `Asset` from `asset.ts`: the persisted asset definition; `totalSupply`
is the only field mutated after creation (decremented by burn). -/
structure Asset where
  id : String
  name : String
  symbol : String
  decimals : ℚ
  totalSupply : ℚ
  creator : String
  description : String
  createdAt : Int
  deriving DecidableEq, Repr

mutual

/-- The dynamic `payload: string | object` of a `BlockData`, restricted to
the shapes the core actually stores: a raw string, an embedded
`AssetTransaction` (records of type `asset_transaction`), an embedded
asset definition (records of type `asset_creation`), or an array of
records (the `transaction_batch` container built by the miner). -/
inductive Payload where
  | str : String → Payload
  | assetTx : AssetTransaction → Payload
  | assetDef : Asset → Payload
  | batch : List BlockData → Payload

/-- The `BlockData` from `block.ts`: `{type, payload, signatures,
requiredSigners}` (the optional `encryption` metadata is carried opaquely
by the payload and never inspected by the operations modelled here). -/
inductive BlockData where
  | mk : String → Payload → List Sig → Nat → BlockData

end

/-- Field `type` of a `BlockData`. -/
def BlockData.rtype : BlockData → String
  | .mk t _ _ _ => t

/-- Field `payload` of a `BlockData`. -/
def BlockData.payload : BlockData → Payload
  | .mk _ p _ _ => p

/-- Field `signatures` of a `BlockData`. -/
def BlockData.sigs : BlockData → List Sig
  | .mk _ _ s _ => s

/-- Field `requiredSigners` of a `BlockData`. -/
def BlockData.requiredSigners : BlockData → Nat
  | .mk _ _ _ r => r

/-- External primitives consumed by the core, per spec §6: content hashing
(`hashData`, SHA-256 hex), canonical serialization (`JSON.stringify` on a
`BlockData`), and the node identity's public key and signing function. -/
structure Env where
  hashData : String → String
  stringifyData : BlockData → String
  publicKey : String
  sign : String → String

/-- The `Block` from `block.ts`: `{timestamp, data, previousHash, hash, nonce}`. -/
structure Block where
  timestamp : Int
  data : BlockData
  previousHash : String
  hash : String
  nonce : Nat

/-- The `BlockImpl.calculateHash`: `hashData(previousHash + timestamp +
JSON.stringify(data) + nonce)` — a pure function of every field except
`hash` itself. -/
def calculateHash (e : Env) (b : Block) : String :=
  e.hashData (b.previousHash ++ toString b.timestamp ++ e.stringifyData b.data ++ toString b.nonce)

/-- The `BlockImpl` constructor: nonce `0`, `hash` computed immediately. -/
def newBlock (e : Env) (timestamp : Int) (data : BlockData) (previousHash : String) : Block :=
  let b : Block := ⟨timestamp, data, previousHash, "", 0⟩
  { b with hash := calculateHash e b }

/-- The `BlockImpl.isValid` (self-consistency): the stored hash equals the
recomputed hash. -/
def blockSelfConsistent (e : Env) (b : Block) : Bool :=
  b.hash == calculateHash e b

/-- The `BlockImpl.hasEnoughSignatures`: `signatures.length >= requiredSigners`
— a pure count check. -/
def hasEnoughSigs (b : Block) : Bool :=
  b.data.requiredSigners ≤ b.data.sigs.length

/-- The mining target `Array(difficulty + 1).join('0')`: a string of
`difficulty` `'0'` characters. -/
def zeroTarget (difficulty : Nat) : String :=
  String.mk (List.replicate difficulty '0')

/-- One observation of the `mineBlock` loop guard:
`hash.substring(0, difficulty) === target`. -/
def minedEnough (difficulty : Nat) (b : Block) : Bool :=
  b.hash.take difficulty == zeroTarget difficulty

/-- The body of one `mineBlock` iteration: `this.nonce++; this.hash =
this.calculateHash()`. -/
def mineStep (e : Env) (b : Block) : Block :=
  let b' : Block := { b with nonce := b.nonce + 1 }
  { b' with hash := calculateHash e b' }

/-- The `BlockImpl.mineBlock`, with explicit fuel for the unbounded `while`
loop: test the guard, and if the hash does not yet start with `difficulty`
zeros, bump the nonce, recompute the hash, and repeat. `none` means the
loop has not terminated within `fuel` iterations. -/
def mineAux (e : Env) (difficulty : Nat) : Nat → Block → Option Block
  | fuel, b =>
    if minedEnough difficulty b then some b
    else
      match fuel with
      | 0 => none
      | fuel' + 1 => mineAux e difficulty fuel' (mineStep e b)

/-- The `Blockchain` state from `blockchain.ts`: the in-memory chain, the
configured difficulty and batch bound, the pending-transaction pool, and
the persisted block files (`saveBlock` writes one file per block keyed by
its hash; embedded as the `stored` list). -/
structure Blockchain where
  chain : List Block
  difficulty : Nat
  pendingTransactions : List BlockData
  maxTransactionsPerBlock : Nat
  stored : List Block

/-- The `Blockchain.getLatestBlock`: `chain[chain.length - 1]` (undefined on an
empty chain, which cannot happen post-construction). -/
def getLatestBlock (bc : Blockchain) : Option Block :=
  bc.chain.getLast?

/-- The `Blockchain.saveBlock`: writes the block to the file named by its hash
— creating the file, or overwriting an existing file with the same name. -/
def saveBlockFile (stored : List Block) (b : Block) : List Block :=
  if stored.any (fun x => x.hash == b.hash) then
    stored.map (fun x => if x.hash == b.hash then b else x)
  else
    stored ++ [b]

/-- The `Blockchain.addTransaction`: push the record onto the tail of the
pending pool (the `try` block cannot fail; the function always returns
`true`). -/
def addTransaction (bc : Blockchain) (data : BlockData) : Blockchain :=
  { bc with pendingTransactions := bc.pendingTransactions ++ [data] }

/-- The `Blockchain.createGenesisBlock`: the genesis record — type
`identity`, no signatures, zero required signers, previous hash `"0"`. -/
def genesisData : BlockData :=
  .mk "identity" (.str "Genesis Block - Nebulus Network") [] 0

/-- Construction of a `Blockchain` over an empty data directory: no block
files to load, so the genesis block is synthesized and persisted. -/
def openFreshChain (e : Env) (now : Int) (difficulty maxTx : Nat) : Blockchain :=
  let g := newBlock e now genesisData "0"
  { chain := [g], difficulty := difficulty, pendingTransactions := [],
    maxTransactionsPerBlock := maxTx, stored := saveBlockFile [] g }

/-- Outcome of `mineNextBlock`. `noPending` is the `null` return on an
empty pool; `stuck` covers the two situations in which the TypeScript call
never returns normally (the unbounded mining loop still running — the
model's fuel ran out — and the unreachable empty-chain access), in which
case no post-state is observable. -/
inductive MineResult where
  | noPending
  | stuck
  | mined : Block → MineResult

/-- The `Blockchain.mineNextBlock`: if the pool is empty return `null`;
otherwise splice up to `maxTransactionsPerBlock` records off the head of
the pool, wrap them as a single `transaction_batch` record with no
signatures and zero required signers, build a block on top of the latest
block, mine it, append it and persist it. -/
def mineNextBlock (e : Env) (fuel : Nat) (now : Int) (bc : Blockchain) :
    MineResult × Blockchain :=
  if bc.pendingTransactions.isEmpty then (.noPending, bc)
  else
    let txs := bc.pendingTransactions.take bc.maxTransactionsPerBlock
    let rest := bc.pendingTransactions.drop bc.maxTransactionsPerBlock
    match getLatestBlock bc with
    | none => (.stuck, bc)
    | some previousBlock =>
      let blockData : BlockData := .mk "transaction_batch" (.batch txs) [] 0
      match mineAux e bc.difficulty fuel (newBlock e now blockData previousBlock.hash) with
      | none => (.stuck, bc)
      | some b =>
        (.mined b,
          { bc with pendingTransactions := rest,
                    chain := bc.chain ++ [b],
                    stored := saveBlockFile bc.stored b })

/-- The `Blockchain.addBlock` (legacy convenience): add the record to the pool
and force an immediate `mineNextBlock`. -/
def addBlock (e : Env) (fuel : Nat) (now : Int) (bc : Blockchain) (data : BlockData) :
    MineResult × Blockchain :=
  mineNextBlock e fuel now (addTransaction bc data)

/-- The observable result of `Blockchain.addMinedBlock`: the boolean return
paired with which check failed, as reported on the console
(`hash não corresponde` / `não aponta para o último bloco` /
`assinaturas insuficientes`). -/
inductive AddMinedResult where
  | added
  | rejectedHashMismatch
  | rejectedWrongPreviousHash
  | rejectedInsufficientSignatures
  deriving DecidableEq, Repr

/-- The `Blockchain.addMinedBlock`: validate an externally mined block —
(1) self-consistency, (2) `previousHash` equals the current tip's hash,
(3) signature-count sufficiency — short-circuiting on the first failure
and mutating nothing on rejection; on success append and persist. -/
def addMinedBlock (e : Env) (bc : Blockchain) (b : Block) : AddMinedResult × Blockchain :=
  if ¬ blockSelfConsistent e b then (.rejectedHashMismatch, bc)
  else
    match getLatestBlock bc with
    | none => (.rejectedWrongPreviousHash, bc)
    | some latestBlock =>
      if b.previousHash ≠ latestBlock.hash then (.rejectedWrongPreviousHash, bc)
      else if ¬ hasEnoughSigs b then (.rejectedInsufficientSignatures, bc)
      else (.added, { bc with chain := bc.chain ++ [b], stored := saveBlockFile bc.stored b })

/-- The per-block checks of `Blockchain.isChainValid`, applied to each
block beyond the genesis against its predecessor: recomputed hash,
previous-hash linkage, signature sufficiency. -/
def chainStepOk (e : Env) (prev cur : Block) : Bool :=
  blockSelfConsistent e cur && (cur.previousHash == prev.hash) && hasEnoughSigs cur

/-- The loop of `Blockchain.isChainValid` from index 1, short-circuiting
`false` on the first violated check. -/
def isChainValidFrom (e : Env) : Block → List Block → Bool
  | _, [] => true
  | prev, cur :: rest => chainStepOk e prev cur && isChainValidFrom e cur rest

/-- The `Blockchain.isChainValid`: walk the chain from index 1 checking
self-consistency, previous-hash linkage and signature sufficiency of every
block (the genesis block itself is not checked). -/
def isChainValid (e : Env) (bc : Blockchain) : Bool :=
  match bc.chain with
  | [] => true
  | g :: rest => isChainValidFrom e g rest

/-- The `Blockchain.getTransactionsByType`: collect, in chain order, each block
record of the given type, and — for `transaction_batch` container blocks —
the embedded sub-records of that type. -/
def getTransactionsByType (t : String) (chain : List Block) : List BlockData :=
  chain.flatMap fun b =>
    (if b.data.rtype == t then [b.data] else []) ++
    (if b.data.rtype == "transaction_batch" then
      match b.data.payload with
      | .batch l => l.filter (fun tx => tx.rtype == t)
      | _ => []
    else [])

/-- The `Blockchain.getPendingTransactionsCount`. -/
def getPendingTransactionsCount (bc : Blockchain) : Nat :=
  bc.pendingTransactions.length

/-- The `Blockchain.loadChain` reads the persisted block files back in an
order determined by the file system (`readdirSync` order is unspecified)
and sorts them by `timestamp`; ties are therefore resolved arbitrarily.
A `loaded` list is a possible reload of `stored` exactly when it is a
permutation of the stored blocks that is sorted by timestamp. -/
def IsReloadOf (stored loaded : List Block) : Prop :=
  loaded.Perm stored ∧ loaded.Pairwise (fun a b => a.timestamp ≤ b.timestamp)

/-- A `Blockchain` freshly opened over previously persisted blocks: the
chain is one of the possible reloads of the stored files. -/
def openStoredChain (loaded stored : List Block) (difficulty maxTx : Nat) : Blockchain :=
  { chain := loaded, difficulty := difficulty, pendingTransactions := [],
    maxTransactionsPerBlock := maxTx, stored := stored }

/-! ## Peer consensus tally (`identity.ts`) -/

/-- The `ValidationStatus` from `identity.ts`. -/
inductive ValidationStatus where
  | valid
  | invalid
  deriving DecidableEq, Repr

/-- The `ValidationResult` from `identity.ts`: `{blockHash, status, reason?}`. -/
structure ValidationResult where
  blockHash : String
  status : ValidationStatus
  reason : Option String
  deriving DecidableEq, Repr

/-- The `ConsensusResult` from `identity.ts`. -/
structure ConsensusResult where
  blockHash : String
  validations : List ValidationResult
  accepted : Bool
  deriving DecidableEq, Repr

/-- The accumulated `Map<string, ValidationResult[]>` of responses, keyed
by block hash. -/
def ValidationMap := List (String × List ValidationResult)

/-- The `Map.get` on the accumulated validations. -/
def lookupValidations (m : ValidationMap) (blockHash : String) :
    Option (List ValidationResult) :=
  (m.find? (fun p => p.1 == blockHash)).map (fun p => p.2)

/-- The default consensus threshold of `Node.checkConsensus` (`0.67`),
embedded exactly as the rational it denotes. -/
def defaultThreshold : ℚ := 67 / 100

/-- The `Node.checkConsensus`: no entry for the hash, or zero responses, means
not accepted; otherwise the block is accepted exactly when the fraction of
`valid` responses among all responses reaches the threshold. JS `number`
division and comparison are embedded as exact rational arithmetic. -/
def checkConsensus (blockHash : String) (validations : ValidationMap) (threshold : ℚ) :
    ConsensusResult :=
  match lookupValidations validations blockHash with
  | none => ⟨blockHash, [], false⟩
  | some blockValidations =>
    if blockValidations.length = 0 then ⟨blockHash, [], false⟩
    else
      let validCount := (blockValidations.filter (fun v => v.status == .valid)).length
      let validPercentage : ℚ := (validCount : ℚ) / (blockValidations.length : ℚ)
      ⟨blockHash, blockValidations, decide (threshold ≤ validPercentage)⟩

/-! ## Peer-set bookkeeping (`identity.ts`) -/

/-- The connection-related state of a `Node`: whether the P2P layer is
running, the node's own listen port, and the set of connected peers
(a JS `Set` of normalized multiaddrs, embedded as its insertion-ordered
element list). -/
structure NetState where
  isRunning : Bool
  port : Nat
  connectedPeers : List String

/-- The `Node.isLocalIP` together with the literal comparisons in
`connectToPeer`: only `localhost` and `127.0.0.1` count as local
(`getLocalIPs` is a stub returning the empty list). -/
def isLocalIP (ip : String) : Bool :=
  ip == "127.0.0.1" || ip == "localhost"

/-- The `String.split(sep)` of JavaScript for a one-character separator,
written as structural recursion over the character list (so that concrete
addresses evaluate): split into the maximal runs between separators,
keeping empty runs. -/
def splitListOn (sep : Char) : List Char → List (List Char)
  | [] => [[]]
  | c :: cs =>
    match splitListOn sep cs with
    | [] => if c = sep then [[], []] else [[c]]
    | h :: t => if c = sep then [] :: h :: t else (c :: h) :: t

/-- The `address.split(':')` as a list of strings. -/
def splitColon (address : String) : List String :=
  (splitListOn ':' address.data).map String.mk

/-- The `parseInt(s, 10)` on the port half of the address: the decimal value
of the leading run of digits, `NaN` (here `none`) when there is none. -/
def parsePort (s : String) : Option Nat :=
  let ds := s.data.takeWhile Char.isDigit
  if ds.isEmpty then none else some (ds.foldl (fun acc c => 10 * acc + (c.toNat - '0'.toNat)) 0)

/-- The normalized multiaddr `/ip4/<ip>/tcp/<port>` a peer is keyed by. -/
def nodeAddr (ip : String) (port : Nat) : String :=
  "/ip4/" ++ ip ++ "/tcp/" ++ toString port

/-- The observable outcome of `Node.connectToPeer`: the three thrown
errors, the logged early return for an already-connected peer, and a
successful connection. -/
inductive ConnectResult where
  | notRunning
  | invalidFormat
  | selfConnection
  | alreadyConnected
  | connected
  deriving DecidableEq, Repr

/-- The address parse at the head of `connectToPeer`:
`const [ip, portStr] = address.split(':')` and `parseInt(portStr, 10)`,
failing (`NaN` / falsy ip) when the port half is missing or digit-free or
the ip half is empty. -/
def parseAddress (address : String) : Option (String × Nat) :=
  let parts := splitColon address
  let ip := parts.headD ""
  match parts[1]? with
  | none => none
  | some portStr =>
    match parsePort portStr with
    | none => none
    | some port => if ip = "" then none else some (ip, port)

/-- The `Node.connectToPeer`: reject when not running; split the address on
`':'` and parse the port; reject a malformed address; reject a connection
to the node's own port on a local IP before touching any state; return
without change when the normalized address is already a connected peer;
otherwise add it. (The external `bootstrapManager` cache is out of scope,
per spec §1.) -/
def connectToPeer (n : NetState) (address : String) : ConnectResult × NetState :=
  if ¬ n.isRunning then (.notRunning, n)
  else
    match parseAddress address with
    | none => (.invalidFormat, n)
    | some (ip, port) =>
      if port = n.port && (ip == "localhost" || ip == "127.0.0.1" || isLocalIP ip) then
        (.selfConnection, n)
      else
        let addr := nodeAddr ip port
        if n.connectedPeers.contains addr then (.alreadyConnected, n)
        else (.connected, { n with connectedPeers := n.connectedPeers ++ [addr] })

/-- The self-connection invariant on the peer set: no normalized multiaddr
built from a local IP and the node's own listen port is connected. -/
def noSelfPeer (n : NetState) : Prop :=
  ∀ ip, isLocalIP ip = true → nodeAddr ip n.port ∉ n.connectedPeers

/-- The value of a decimal digit character. -/
def digitVal (c : Char) : Nat :=
  c.toNat - '0'.toNat

/-- The numeric value of a digit string, accumulated left to right on top
of `a` — the inverse reading of `Nat.toDigitsCore`'s output. -/
def valFrom (a : Nat) (l : List Char) : Nat :=
  l.foldl (fun acc c => 10 * acc + digitVal c) a

/-! ## Asset ledger (`asset.ts`) -/

/-- The `AssetManager` state: the chain it writes audit records to, the
in-memory asset definitions, their persisted counterparts (`saveAsset`
writes one file per asset keyed by id), and the in-memory balance
projection `assetId -> address -> balance`. JS `Map`s with `get(k) || 0`
reads are embedded as total functions with default `0`, and the map of
definitions as a partial function keyed by id. -/
structure AMState where
  blockchain : Blockchain
  assets : String → Option Asset
  assetsDisk : String → Option Asset
  balances : String → String → ℚ

/-- The `AssetManager.getBalance`: the balance, defaulting to `0` both for an
unknown asset and an unknown address. -/
def getBalance (s : AMState) (assetId address : String) : ℚ :=
  s.balances assetId address

/-- The `AssetManager.updateBalance`: add `amount` (possibly negative) to the
entry for `(assetId, address)`, creating it from `0` if absent. -/
def updateBalance (bal : String → String → ℚ) (assetId address : String) (amount : ℚ) :
    String → String → ℚ :=
  fun a addr => if a = assetId ∧ addr = address then bal a addr + amount else bal a addr

/-- The string `type` of an `AssetTransaction`. -/
def AssetTxType.str : AssetTxType → String
  | .mint => "mint"
  | .transfer => "transfer"
  | .burn => "burn"

/-- The `AssetManager.signTransaction`: sign the concatenation of the
transaction's fields. -/
def signAssetTx (e : Env) (t : AssetTransaction) : String :=
  e.sign (t.txType.str ++ t.assetId ++ t.fromAddr ++ t.toAddr ++ toString t.amount
    ++ toString t.timestamp)

/-- The `asset_transaction` audit record wrapped around a signed
transaction and pushed onto the chain's pending pool. -/
def assetTxRecord (e : Env) (t : AssetTransaction) : BlockData :=
  .mk "asset_transaction" (.assetTx t) [⟨e.publicKey, (t.sig).getD ""⟩] 1

/-- The typed failures thrown by the asset operations. -/
inductive AssetError where
  | assetNotFound
  | invalidAddress
  | invalidAmount
  | insufficientBalance
  deriving DecidableEq, Repr

/-- The `AssetManager.mintAsset`: fail if the asset is unknown, the address
empty, or the amount not positive; otherwise sign a `mint` transaction,
push its audit record onto the pool, and credit the recipient. The asset
definition — in particular `totalSupply` — is not touched. -/
def mintAsset (e : Env) (s : AMState) (assetId toAddress : String) (amount : ℚ) (now : Int) :
    Except AssetError AssetTransaction × AMState :=
  match s.assets assetId with
  | none => (.error .assetNotFound, s)
  | some _ =>
    if toAddress = "" then (.error .invalidAddress, s)
    else if amount ≤ 0 then (.error .invalidAmount, s)
    else
      let tx0 : AssetTransaction := ⟨.mint, assetId, "", toAddress, amount, now, none⟩
      let tx := { tx0 with sig := some (signAssetTx e tx0) }
      (.ok tx,
        { s with blockchain := addTransaction s.blockchain (assetTxRecord e tx),
                 balances := updateBalance s.balances assetId toAddress amount })

/-- The `AssetManager.transferAsset`: fail if the asset is unknown, either
address is empty, the amount is not positive, or the sender's balance is
below the amount; otherwise sign a `transfer` transaction, push its audit
record, debit the sender and credit the recipient. -/
def transferAsset (e : Env) (s : AMState) (assetId fromAddress toAddress : String)
    (amount : ℚ) (now : Int) : Except AssetError AssetTransaction × AMState :=
  match s.assets assetId with
  | none => (.error .assetNotFound, s)
  | some _ =>
    if fromAddress = "" ∨ toAddress = "" then (.error .invalidAddress, s)
    else if amount ≤ 0 then (.error .invalidAmount, s)
    else if getBalance s assetId fromAddress < amount then (.error .insufficientBalance, s)
    else
      let tx0 : AssetTransaction := ⟨.transfer, assetId, fromAddress, toAddress, amount, now, none⟩
      let tx := { tx0 with sig := some (signAssetTx e tx0) }
      (.ok tx,
        { s with blockchain := addTransaction s.blockchain (assetTxRecord e tx),
                 balances := updateBalance
                   (updateBalance s.balances assetId fromAddress (-amount))
                   assetId toAddress amount })

/-- The `AssetManager.burnAsset`: same guards as transfer (with only the
source address); debit the source, decrement the asset definition's
`totalSupply`, and persist the updated definition. -/
def burnAsset (e : Env) (s : AMState) (assetId fromAddress : String) (amount : ℚ) (now : Int) :
    Except AssetError AssetTransaction × AMState :=
  match s.assets assetId with
  | none => (.error .assetNotFound, s)
  | some asset =>
    if fromAddress = "" then (.error .invalidAddress, s)
    else if amount ≤ 0 then (.error .invalidAmount, s)
    else if getBalance s assetId fromAddress < amount then (.error .insufficientBalance, s)
    else
      let tx0 : AssetTransaction := ⟨.burn, assetId, fromAddress, "", amount, now, none⟩
      let tx := { tx0 with sig := some (signAssetTx e tx0) }
      let updated := { asset with totalSupply := asset.totalSupply - amount }
      (.ok tx,
        { s with blockchain := addTransaction s.blockchain (assetTxRecord e tx),
                 balances := updateBalance s.balances assetId fromAddress (-amount),
                 assets := fun x => if x = assetId then some updated else s.assets x,
                 assetsDisk := fun x => if x = assetId then some updated else s.assetsDisk x })

/-- Whether an asset id is known to the manager (`assets.has`). -/
def knownAsset (assets : String → Option Asset) (id : String) : Bool :=
  (assets id).isSome

/-- One step of the replay loop of `AssetManager.calculateBalances`: cast
the record's payload to an `AssetTransaction` (only `asset_transaction`
records reach this point, and the manager only ever stores transaction
payloads under that type), skip it if its asset is unknown, and otherwise
apply the same balance deltas as the live-update paths. -/
def applyAssetTxBal (assets : String → Option Asset) (bal : String → String → ℚ)
    (d : BlockData) : String → String → ℚ :=
  match d.payload with
  | .assetTx t =>
    if knownAsset assets t.assetId then
      match t.txType with
      | .mint => updateBalance bal t.assetId t.toAddr t.amount
      | .transfer =>
        updateBalance (updateBalance bal t.assetId t.fromAddr (-t.amount))
          t.assetId t.toAddr t.amount
      | .burn => updateBalance bal t.assetId t.fromAddr (-t.amount)
    else bal
  | _ => bal

/-- The replay fold of `calculateBalances`: the cleared state — empty maps
for every known asset, i.e. the all-zero projection — folded over the
chain's `asset_transaction` records in chain order. -/
def replayBalances (assets : String → Option Asset) (txs : List BlockData) :
    String → String → ℚ :=
  txs.foldl (applyAssetTxBal assets) (fun _ _ => 0)

/-- The `AssetManager.calculateBalances`: reset all balances and replay the
chain's `asset_transaction` records in chain order. -/
def calculateBalances (s : AMState) : AMState :=
  { s with balances :=
      replayBalances s.assets (getTransactionsByType "asset_transaction" s.blockchain.chain) }

/-- One incremental asset-ledger operation, with the timestamp `Date.now()`
would supply. -/
inductive LedgerOp where
  | mint (assetId toAddress : String) (amount : ℚ) (now : Int)
  | transfer (assetId fromAddress toAddress : String) (amount : ℚ) (now : Int)
  | burn (assetId fromAddress : String) (amount : ℚ) (now : Int)

/-- Dispatch of one ledger operation. -/
def applyOp (e : Env) (s : AMState) : LedgerOp → Except AssetError AssetTransaction × AMState
  | .mint assetId toAddress amount now => mintAsset e s assetId toAddress amount now
  | .transfer assetId fromAddress toAddress amount now =>
    transferAsset e s assetId fromAddress toAddress amount now
  | .burn assetId fromAddress amount now => burnAsset e s assetId fromAddress amount now

/-- One event in the life of the ledger: an incremental operation (failed
operations throw before mutating, so both outcomes are covered), or one
tick of the miner draining the pool. -/
inductive LedgerEvent where
  | op : LedgerOp → LedgerEvent
  | mine (fuel : Nat) (now : Int)

/-- State after one ledger event. -/
def applyEvent (e : Env) (s : AMState) : LedgerEvent → AMState
  | .op o => (applyOp e s o).2
  | .mine fuel now => { s with blockchain := (mineNextBlock e fuel now s.blockchain).2 }

/-- State after a sequence of ledger events. -/
def applyEvents (e : Env) (s : AMState) (es : List LedgerEvent) : AMState :=
  es.foldl (applyEvent e) s

/-- Sample environment used by the concrete witnesses: the content hash is
the hashed string itself, serialization is trivial, and signing is
constant — any `Env` instance exercises the definitions. -/
def envId : Env :=
  ⟨fun s => s, fun _ => "", "pk", fun _ => "sig"⟩

/-- The number of `valid` responses among a list of validation results. -/
def countValid (vs : List ValidationResult) : Nat :=
  (vs.filter (fun v => v.status == .valid)).length

/-- A validation response with the given status for the fixed hash used in
the boundary instance below. -/
def vr (st : ValidationStatus) : ValidationResult :=
  ⟨"h", st, none⟩

/-- A sample record used by the concrete pool scenario: a `custom` record
whose payload is the record's index. -/
def rRec (i : Nat) : BlockData :=
  .mk "custom" (.str (toString i)) [] 0

/-- The genesis block of the concrete witness chain. -/
def gW : Block :=
  newBlock envId 0 genesisData "0"

/-- The concrete pool scenario of C5: a freshly opened chain with records
`r1..r10` pending and `maxTransactionsPerBlock = 3` (difficulty `0`, so
each mining call completes without consuming fuel). -/
def bcPool : Blockchain :=
  { chain := [gW], difficulty := 0,
    pendingTransactions := [rRec 1, rRec 2, rRec 3, rRec 4, rRec 5, rRec 6, rRec 7, rRec 8,
      rRec 9, rRec 10],
    maxTransactionsPerBlock := 3, stored := [gW] }

/-- The block the first `mineNextBlock` call of the scenario mines. -/
def bW1 : Block :=
  newBlock envId 1 (.mk "transaction_batch" (.batch [rRec 1, rRec 2, rRec 3]) [] 0) gW.hash

/-- Pool state after the first scenario call. -/
def bcP1 : Blockchain :=
  (mineNextBlock envId 0 1 bcPool).2

/-- The block the second scenario call mines. -/
def bW2 : Block :=
  newBlock envId 2 (.mk "transaction_batch" (.batch [rRec 4, rRec 5, rRec 6]) [] 0) bW1.hash

/-- Pool state after the second scenario call. -/
def bcP2 : Blockchain :=
  (mineNextBlock envId 0 2 bcP1).2

/-- The block the third scenario call mines. -/
def bW3 : Block :=
  newBlock envId 3 (.mk "transaction_batch" (.batch [rRec 7, rRec 8, rRec 9]) [] 0) bW2.hash

/-- Pool state after the third scenario call. -/
def bcP3 : Blockchain :=
  (mineNextBlock envId 0 3 bcP2).2

/-- The concrete asset of the witness scenarios: total supply 1000,
created by `C` (who holds the auto-minted supply in `sW`). -/
def assetW : Asset :=
  ⟨"AST1", "Token", "TOK", 8, 1000, "C", "", 0⟩

/-- The concrete asset-manager state of the witness scenarios: one known
asset and the full supply credited to `C`. -/
def sW : AMState :=
  { blockchain := openFreshChain envId 0 0 10,
    assets := fun x => if x = "AST1" then some assetW else none,
    assetsDisk := fun x => if x = "AST1" then some assetW else none,
    balances := fun a addr => if a = "AST1" ∧ addr = "C" then 1000 else 0 }

/-- The `asset_transaction` records among a list of pool records. -/
def assetTxFilter (l : List BlockData) : List BlockData :=
  l.filter (fun d => d.rtype == "asset_transaction")

/-- The `asset_transaction` records reachable from the chain (unwrapping
`transaction_batch` containers), in chain order. -/
def chainAssetTxs (s : AMState) : List BlockData :=
  getTransactionsByType "asset_transaction" s.blockchain.chain

/-- The replay invariant tying the incrementally maintained balances to
the audit trail: the balances equal the replay of every
`asset_transaction` record, mined ones (in chain order) followed by the
ones still in the pending pool (in submission order). A freshly
initialized manager (`initialize` = load assets + `calculateBalances` over
a chain with an empty pool) satisfies it definitionally. -/
def BalReplayInv (s : AMState) : Prop :=
  s.balances = replayBalances s.assets
    (chainAssetTxs s ++ assetTxFilter s.blockchain.pendingTransactions)

/-- The asset-manager state of the replay counterexample: a fresh chain
(genesis only, nothing pending), one known asset, all balances zero. -/
def sWZ : AMState :=
  { blockchain := openFreshChain envId 0 0 10,
    assets := fun x => if x = "AST1" then some assetW else none,
    assetsDisk := fun x => if x = "AST1" then some assetW else none,
    balances := fun _ _ => 0 }

/-- The chain used by the reload counterexample before reordering: two
blocks mined in the same millisecond (`Date.now()` returning 0 for both)
on top of the genesis block, one record per block. -/
def bcC0 : Blockchain :=
  { chain := [gW], difficulty := 0, pendingTransactions := [rRec 1, rRec 2],
    maxTransactionsPerBlock := 1, stored := [gW] }

/-- First block mined at timestamp 0. -/
def bA : Block :=
  newBlock envId 0 (.mk "transaction_batch" (.batch [rRec 1]) [] 0) gW.hash

/-- Second block mined at timestamp 0, on top of `bA`. -/
def bB : Block :=
  newBlock envId 0 (.mk "transaction_batch" (.batch [rRec 2]) [] 0) bA.hash

/-- State after the first same-millisecond mining call. -/
def bcC1 : Blockchain :=
  (mineNextBlock envId 0 0 bcC0).2

/-- State after the second same-millisecond mining call. -/
def bcC2 : Blockchain :=
  (mineNextBlock envId 0 0 bcC1).2

/-! ## Helper lemmas: blocks and mining -/

/-- The function `calculateHash` reads every field except `hash`, so overwriting `hash`
does not change the recomputed hash. -/
theorem calculateHash_set_hash (e : Env) (b : Block) (h : String) :
    calculateHash e { b with hash := h } = calculateHash e b := rfl

/-- A freshly constructed block is self-consistent: the constructor stores
exactly the recomputed hash. -/
theorem newBlock_selfConsistent (e : Env) (ts : Int) (data : BlockData) (prev : String) :
    blockSelfConsistent e (newBlock e ts data prev) = true := by
  simp [blockSelfConsistent, newBlock, calculateHash]

/-- One mining iteration recomputes the hash from the bumped nonce, so its
result is always self-consistent. -/
theorem mineStep_selfConsistent (e : Env) (b : Block) :
    blockSelfConsistent e (mineStep e b) = true := by
  simp [blockSelfConsistent, mineStep, calculateHash]

/-- The mining loop only rewrites `nonce` and `hash`: the payload, the
previous-hash pointer and the timestamp of the returned block are those of
the block fed in. -/
theorem mineAux_some_fields (e : Env) (d : Nat) :
    ∀ (fuel : Nat) (b b' : Block), mineAux e d fuel b = some b' →
      b'.data = b.data ∧ b'.previousHash = b.previousHash ∧ b'.timestamp = b.timestamp := by
  intro fuel
  induction fuel with
  | zero =>
    intro b b' h
    rw [mineAux] at h
    by_cases hg : minedEnough d b
    · simp [hg] at h
      rw [← h]
      exact ⟨rfl, rfl, rfl⟩
    · simp [hg] at h
  | succ fuel ih =>
    intro b b' h
    rw [mineAux] at h
    by_cases hg : minedEnough d b
    · simp [hg] at h
      rw [← h]
      exact ⟨rfl, rfl, rfl⟩
    · simp [hg] at h
      rcases ih (mineStep e b) b' h with ⟨h1, h2, h3⟩
      exact ⟨h1, h2, h3⟩

/-- When the mining loop terminates, the returned block satisfies the loop
guard — its first `difficulty` characters are zeros — and it is
self-consistent provided the block fed into the loop was. -/
theorem mineAux_some_spec (e : Env) (d : Nat) :
    ∀ (fuel : Nat) (b b' : Block), mineAux e d fuel b = some b' →
      (blockSelfConsistent e b = true → blockSelfConsistent e b' = true) ∧
        minedEnough d b' = true := by
  intro fuel
  induction fuel with
  | zero =>
    intro b b' h
    rw [mineAux] at h
    by_cases hg : minedEnough d b
    · simp [hg] at h
      exact ⟨fun hs => h ▸ hs, h ▸ hg⟩
    · simp [hg] at h
  | succ fuel ih =>
    intro b b' h
    rw [mineAux] at h
    by_cases hg : minedEnough d b
    · simp [hg] at h
      exact ⟨fun hs => h ▸ hs, h ▸ hg⟩
    · simp [hg] at h
      rcases ih (mineStep e b) b' h with ⟨hc, hm⟩
      exact ⟨fun _ => hc (mineStep_selfConsistent e b), hm⟩

/-! ## Helper lemmas: decimal representation and multiaddr injectivity -/

/-- The function `Nat.digitChar` evaluates each digit below ten to its character, whose
`digitVal` recovers it. -/
theorem digitVal_digitChar {k : Nat} (h : k < 10) : digitVal (Nat.digitChar k) = k := by
  interval_cases k <;> decide

/-- The value `Nat.digitChar` of a digit below ten is a decimal digit character. -/
theorem digitChar_isDigit {k : Nat} (h : k < 10) : (Nat.digitChar k).isDigit = true := by
  interval_cases k <;> decide

/-- The function `valFrom` on an empty list returns the accumulator. -/
theorem valFrom_nil (a : Nat) : valFrom a [] = a := rfl

/-- The `valFrom` cons step. -/
theorem valFrom_cons (a : Nat) (c : Char) (l : List Char) :
    valFrom a (c :: l) = valFrom (10 * a + digitVal c) l := rfl

/-- The digit list `Nat.toDigitsCore` produces for `n` (with enough fuel)
reads back, on top of any accumulator, as the accumulator shifted past
`n`'s digits plus `n` — the loop is a faithful base-10 printer. -/
theorem toDigitsCore_val : ∀ (fuel n : Nat), n < fuel → ∀ (ds : List Char),
    ∃ k, 0 < k ∧ ∀ a, valFrom a (Nat.toDigitsCore 10 fuel n ds) =
      valFrom (a * 10 ^ k + n) ds := by
  intro fuel
  induction fuel with
  | zero => intro n h; omega
  | succ fuel ih =>
    intro n h ds
    by_cases h0 : n / 10 = 0
    · refine ⟨1, Nat.one_pos, fun a => ?_⟩
      have hmod : n % 10 = n := by omega
      simp only [Nat.toDigitsCore, h0, if_true]
      rw [valFrom_cons, digitVal_digitChar (by omega : n % 10 < 10)]
      rw [hmod, pow_one]
      congr 1
      ring
    · have hpos : 0 < n := by
        rcases Nat.eq_zero_or_pos n with rfl | hp
        · simp at h0
        · exact hp
      have hn10 : n / 10 < fuel := by
        have h1 : n / 10 < n := Nat.div_lt_self hpos (by norm_num)
        omega
      obtain ⟨k, hk, hval⟩ := ih (n / 10) hn10 (Nat.digitChar (n % 10) :: ds)
      refine ⟨k + 1, by omega, fun a => ?_⟩
      simp only [Nat.toDigitsCore, h0, if_false]
      rw [hval a, valFrom_cons, digitVal_digitChar (by omega : n % 10 < 10)]
      congr 1
      have hdm : 10 * (n / 10) + n % 10 = n := Nat.div_add_mod n 10
      calc 10 * (a * 10 ^ k + n / 10) + n % 10
          = a * (10 ^ k * 10) + (10 * (n / 10) + n % 10) := by ring
        _ = a * 10 ^ (k + 1) + n := by rw [hdm, pow_succ]

/-- Reading back the decimal representation of `n` recovers `n`. -/
theorem valFrom_toDigits (n : Nat) : valFrom 0 (Nat.toDigits 10 n) = n := by
  obtain ⟨k, -, hval⟩ := toDigitsCore_val (n + 1) n (Nat.lt_succ_self n) []
  have h := hval 0
  rw [Nat.toDigits] at *
  simpa [valFrom_nil] using h

/-- The function `Nat.repr` (hence `toString` on `Nat`) is injective. -/
theorem natRepr_injective {n m : Nat} (h : Nat.repr n = Nat.repr m) : n = m := by
  have hd : Nat.toDigits 10 n = Nat.toDigits 10 m := by
    have h2 : (Nat.toDigits 10 n).asString = (Nat.toDigits 10 m).asString := by
      simpa [Nat.repr] using h
    exact congrArg String.data h2
  have hn := valFrom_toDigits n
  rw [hd, valFrom_toDigits m] at hn
  omega

/-- Every character `Nat.toDigitsCore` prepends is a decimal digit. -/
theorem toDigitsCore_chars : ∀ (fuel n : Nat) (ds : List Char) (c : Char),
    c ∈ Nat.toDigitsCore 10 fuel n ds → c ∈ ds ∨ c.isDigit = true := by
  intro fuel
  induction fuel with
  | zero => intro n ds c hc; exact Or.inl hc
  | succ fuel ih =>
    intro n ds c hc
    by_cases h0 : n / 10 = 0
    · simp only [Nat.toDigitsCore, h0, if_true] at hc
      rcases List.mem_cons.mp hc with rfl | hmem
      · exact Or.inr (digitChar_isDigit (by omega : n % 10 < 10))
      · exact Or.inl hmem
    · simp only [Nat.toDigitsCore, h0, if_false] at hc
      rcases ih (n / 10) (Nat.digitChar (n % 10) :: ds) c hc with hmem | hdig
      · rcases List.mem_cons.mp hmem with rfl | hmem'
        · exact Or.inr (digitChar_isDigit (by omega : n % 10 < 10))
        · exact Or.inl hmem'
      · exact Or.inr hdig

/-- Every character of `Nat.repr n` is a decimal digit; in particular it
is never a slash. -/
theorem natRepr_no_slash (n : Nat) : '/' ∉ (Nat.repr n).data := by
  intro hmem
  have : ('/' : Char) ∈ ([] : List Char) ∨ ('/' : Char).isDigit = true := by
    apply toDigitsCore_chars (n + 1) n []
    simpa [Nat.repr, Nat.toDigits] using hmem
  rcases this with h | h
  · simp at h
  · simp at h

/-- A `String` is determined by its character data. -/
theorem stringDataInj {a b : String} (h : a.data = b.data) : a = b := by
  cases a
  cases b
  exact congrArg String.mk h

/-- Two slash-free prefixes followed by a slash decompose uniquely. -/
theorem append_slash_inj {xs ys r1 r2 : List Char} (hx : '/' ∉ xs) (hy : '/' ∉ ys)
    (h : xs ++ '/' :: r1 = ys ++ '/' :: r2) : xs = ys ∧ r1 = r2 := by
  induction xs generalizing ys with
  | nil =>
    cases ys with
    | nil => simpa using h
    | cons y ys =>
      simp only [List.nil_append, List.cons_append, List.cons.injEq] at h
      exact absurd (h.1 ▸ List.mem_cons_self y ys) hy
  | cons x xs ih =>
    cases ys with
    | nil =>
      simp only [List.cons_append, List.nil_append, List.cons.injEq] at h
      exact absurd (h.1 ▸ List.mem_cons_self x xs) hx
    | cons y ys =>
      simp only [List.cons_append, List.cons.injEq] at h
      have hx' : '/' ∉ xs := fun hm => hx (List.mem_cons_of_mem _ hm)
      have hy' : '/' ∉ ys := fun hm => hy (List.mem_cons_of_mem _ hm)
      rcases ih hx' hy' h.2 with ⟨h1, h2⟩
      exact ⟨by rw [h.1, h1], h2⟩

/-- A normalized multiaddr built from any parsed ip / port equals the one
built from a local ip and a port only when the components agree: the
`/ip4/<ip>/tcp/<port>` encoding is injective whenever one side's ip is
slash-free, which the local ips are. -/
theorem nodeAddr_own_inj (ip : String) (port : Nat) (ip0 : String) (p : Nat)
    (h0 : isLocalIP ip0 = true) (he : nodeAddr ip port = nodeAddr ip0 p) :
    ip = ip0 ∧ port = p := by
  have hip0 : '/' ∉ ip0.data := by
    simp only [isLocalIP, Bool.or_eq_true, beq_iff_eq] at h0
    rcases h0 with rfl | rfl <;> decide
  have hts : ∀ q : Nat, toString q = Nat.repr q := fun _ => rfl
  have hd : ip.data ++ '/' :: ('t' :: 'c' :: 'p' :: '/' :: (Nat.repr port).data) =
      ip0.data ++ '/' :: ('t' :: 'c' :: 'p' :: '/' :: (Nat.repr p).data) := by
    have h1 := String.data_eq_of_eq he
    simp only [nodeAddr, String.data_append, hts] at h1
    have h2 : ("/ip4/" : String).data ++
        (ip.data ++ '/' :: ('t' :: 'c' :: 'p' :: '/' :: (Nat.repr port).data)) =
        ("/ip4/" : String).data ++
        (ip0.data ++ '/' :: ('t' :: 'c' :: 'p' :: '/' :: (Nat.repr p).data)) := by
      simpa [List.append_assoc] using h1
    exact List.append_cancel_left h2
  have hipfree : '/' ∉ ip.data := by
    have hcnt := congrArg (fun l => l.count '/') hd
    simp only [List.count_append, List.count_cons] at hcnt
    rw [List.count_eq_zero.mpr (natRepr_no_slash port),
      List.count_eq_zero.mpr (natRepr_no_slash p),
      List.count_eq_zero.mpr hip0] at hcnt
    intro hmem
    have : 0 < ip.data.count '/' := List.count_pos_iff.mpr hmem
    omega
  rcases append_slash_inj hipfree hip0 hd with ⟨hips, htail⟩
  simp only [List.cons.injEq, true_and] at htail
  exact ⟨stringDataInj hips, natRepr_injective (stringDataInj htail)⟩

/-! ## C1: importing an externally mined block -/

/-- Claim C1: `addMinedBlock` applies its checks in order — (1)
self-consistency, (2) `previousHash` equals the current tip's hash, (3)
signature-count sufficiency — short-circuiting on the first failure; on
any failure it rejects with the failed check reported and leaves the chain,
the pending pool and the persisted blocks exactly as they were; on success
it appends exactly `b` to the chain and persists it. -/
theorem addMinedBlock_checks_in_order (e : Env) (bc : Blockchain) (b latest : Block)
    (hl : getLatestBlock bc = some latest) :
    ((addMinedBlock e bc b).1 = .rejectedHashMismatch ↔
        blockSelfConsistent e b = false) ∧
    ((addMinedBlock e bc b).1 = .rejectedWrongPreviousHash ↔
        blockSelfConsistent e b = true ∧ b.previousHash ≠ latest.hash) ∧
    ((addMinedBlock e bc b).1 = .rejectedInsufficientSignatures ↔
        blockSelfConsistent e b = true ∧ b.previousHash = latest.hash ∧
          hasEnoughSigs b = false) ∧
    ((addMinedBlock e bc b).1 = .added ↔
        blockSelfConsistent e b = true ∧ b.previousHash = latest.hash ∧
          hasEnoughSigs b = true) ∧
    ((addMinedBlock e bc b).1 ≠ .added → (addMinedBlock e bc b).2 = bc) ∧
    ((addMinedBlock e bc b).1 = .added →
        (addMinedBlock e bc b).2.chain = bc.chain ++ [b] ∧
        (addMinedBlock e bc b).2.stored = saveBlockFile bc.stored b ∧
        (addMinedBlock e bc b).2.pendingTransactions = bc.pendingTransactions) := by
  by_cases h1 : blockSelfConsistent e b
  · by_cases h2 : b.previousHash = latest.hash
    · by_cases h3 : hasEnoughSigs b
      · simp [addMinedBlock, hl, h1, h2, h3]
      · simp [addMinedBlock, hl, h1, h2, h3]
    · simp [addMinedBlock, hl, h1, h2]
  · simp [addMinedBlock, hl, h1]

/-- Witness for C1 at a concrete chain and block: a self-consistent,
tip-pointing, sufficiently signed block is `added` and appended. -/
theorem addMinedBlock_checks_in_order_witness :
    (addMinedBlock envId (openFreshChain envId 0 0 10)
        (newBlock envId 1 genesisData (newBlock envId 0 genesisData "0").hash)).1 = .added ∧
    (addMinedBlock envId (openFreshChain envId 0 0 10)
        (newBlock envId 1 genesisData (newBlock envId 0 genesisData "0").hash)).2.chain =
      (openFreshChain envId 0 0 10).chain ++
        [newBlock envId 1 genesisData (newBlock envId 0 genesisData "0").hash] := by
  have h := addMinedBlock_checks_in_order envId (openFreshChain envId 0 0 10)
    (newBlock envId 1 genesisData (newBlock envId 0 genesisData "0").hash)
    (newBlock envId 0 genesisData "0") rfl
  exact ⟨h.2.2.2.1.mpr ⟨rfl, rfl, rfl⟩, (h.2.2.2.2.2 (h.2.2.2.1.mpr ⟨rfl, rfl, rfl⟩)).1⟩

/-! ## C2: the consensus threshold -/

/-- The `BEq` reduction facts for `ValidationStatus`, used to evaluate the
boundary instances. -/
theorem beq_invalid_valid : (ValidationStatus.invalid == ValidationStatus.valid) = false := rfl

/-- The `BEq` reduction for equal statuses. -/
theorem beq_valid_valid : (ValidationStatus.valid == ValidationStatus.valid) = true := rfl

/-- Claim C2: with the default threshold `0.67`, `checkConsensus` accepts
a block hash iff the response list recorded for it is non-empty and the
fraction of `valid` responses reaches `0.67`; in particular no responses
yield `accepted = false`, ratio `2/3` is rejected and ratio `3/4` is
accepted. -/
theorem checkConsensus_threshold_spec :
    (∀ (m : ValidationMap) (bh : String),
      (checkConsensus bh m defaultThreshold).accepted = true ↔
        ((lookupValidations m bh).getD []) ≠ [] ∧
          defaultThreshold ≤
            (countValid ((lookupValidations m bh).getD []) : ℚ) /
              (((lookupValidations m bh).getD []).length : ℚ)) ∧
    (checkConsensus "h" [] defaultThreshold).accepted = false ∧
    (checkConsensus "h" [("h", [vr .valid, vr .valid, vr .invalid])]
        defaultThreshold).accepted = false ∧
    (checkConsensus "h" [("h", [vr .valid, vr .valid, vr .valid, vr .invalid])]
        defaultThreshold).accepted = true := by
  refine ⟨?main, rfl, ?ratioTwoThirds, ?ratioThreeQuarters⟩
  case ratioTwoThirds =>
    norm_num [checkConsensus, lookupValidations, vr, defaultThreshold, List.filter,
      beq_invalid_valid, beq_valid_valid]
  case ratioThreeQuarters =>
    norm_num [checkConsensus, lookupValidations, vr, defaultThreshold, List.filter,
      beq_invalid_valid, beq_valid_valid]
  intro m bh
  unfold checkConsensus
  match hm : lookupValidations m bh with
  | none => simp [hm]
  | some vs =>
    match vs with
    | [] => simp
    | v :: tl => simp [countValid]

/-! ## C3: self-consistency of constructed and mined blocks -/

/-- Claim C3: a block is self-consistent immediately after construction,
and whenever `mineBlock` completes (the fueled loop returns a block) the
result is again self-consistent and its first `difficulty` characters are
all `'0'` — trivially so for difficulty `0`. -/
theorem mineBlock_selfConsistent_and_pow (e : Env) (d fuel : Nat) (ts : Int)
    (data : BlockData) (prev : String) (b' : Block)
    (h : mineAux e d fuel (newBlock e ts data prev) = some b') :
    blockSelfConsistent e (newBlock e ts data prev) = true ∧
    blockSelfConsistent e b' = true ∧
    b'.hash.take d = zeroTarget d := by
  rcases mineAux_some_spec e d fuel (newBlock e ts data prev) b' h with ⟨hc, hm⟩
  exact ⟨newBlock_selfConsistent e ts data prev,
    hc (newBlock_selfConsistent e ts data prev),
    eq_of_beq hm⟩

/-- Witness for C3: with an identity content hash, difficulty `1` and the
concrete genesis payload on previous hash `"0"`, mining completes at once
(the constructed hash already starts with a zero) and the conclusions
evaluate. -/
theorem mineBlock_selfConsistent_and_pow_witness :
    blockSelfConsistent envId (newBlock envId 0 genesisData "0") = true ∧
    blockSelfConsistent envId (newBlock envId 0 genesisData "0") = true ∧
    (newBlock envId 0 genesisData "0").hash.take 1 = zeroTarget 1 := by
  exact mineBlock_selfConsistent_and_pow envId 1 0 0 genesisData "0"
    (newBlock envId 0 genesisData "0") rfl

/-- Shared characterization of `mineNextBlock`: an empty pool returns
`null` unchanged; a completed call dequeues the head `take` of the pool,
wraps it as the mined block's `transaction_batch` data, appends the block
and leaves the `drop` pending. -/
theorem mineNextBlock_mined_spec (e : Env) (fuel : Nat) (now : Int) (bc : Blockchain)
    (b : Block) :
    (bc.pendingTransactions = [] → mineNextBlock e fuel now bc = (.noPending, bc)) ∧
    ((mineNextBlock e fuel now bc).1 = .mined b →
      b.data = .mk "transaction_batch"
          (.batch (bc.pendingTransactions.take bc.maxTransactionsPerBlock)) [] 0 ∧
      (mineNextBlock e fuel now bc).2.pendingTransactions =
        bc.pendingTransactions.drop bc.maxTransactionsPerBlock ∧
      (mineNextBlock e fuel now bc).2.chain = bc.chain ++ [b] ∧
      (bc.pendingTransactions.take bc.maxTransactionsPerBlock).length =
        min bc.maxTransactionsPerBlock bc.pendingTransactions.length) := by
  constructor
  · intro hnil
    simp [mineNextBlock, hnil]
  · intro h
    rcases hp : bc.pendingTransactions with _ | ⟨ptx, ptl⟩
    · rw [mineNextBlock] at h
      simp [hp] at h
    · rcases hgl : getLatestBlock bc with _ | prev
      · rw [mineNextBlock] at h
        simp [hp, hgl] at h
      · rcases hm : mineAux e bc.difficulty fuel
          (newBlock e now
            (.mk "transaction_batch"
              (.batch (bc.pendingTransactions.take bc.maxTransactionsPerBlock)) [] 0)
            prev.hash) with _ | b0
        · rw [mineNextBlock] at h
          rw [hp] at hm
          simp [hp, hgl, hm] at h
        · rw [mineNextBlock] at h ⊢
          rw [hp] at hm
          simp only [hp, List.isEmpty_cons, Bool.false_eq_true, if_false, hgl, hm] at h ⊢
          cases h
          refine ⟨?_, by simp [← hp], by simp, by simp [← hp, List.length_take, Nat.min_comm]⟩
          rw [(mineAux_some_fields e bc.difficulty fuel _ _ hm).1]
          rfl

/-! ## C5: FIFO batching of the pending pool -/

/-- Claim C5: with an empty pool `mineNextBlock` returns `null` and
changes nothing; otherwise, when it completes, it has dequeued exactly
`min(queue length, maxTransactionsPerBlock)` records off the head of the
queue in FIFO order, and the mined block's data is a single
`transaction_batch` record whose payload is the dequeued list in order,
with no signatures and zero required signers. -/
theorem mineNextBlock_fifo_batching (e : Env) (fuel : Nat) (now : Int) (bc : Blockchain)
    (b : Block) :
    (bc.pendingTransactions = [] → mineNextBlock e fuel now bc = (.noPending, bc)) ∧
    ((mineNextBlock e fuel now bc).1 = .mined b →
      b.data = .mk "transaction_batch"
          (.batch (bc.pendingTransactions.take bc.maxTransactionsPerBlock)) [] 0 ∧
      (mineNextBlock e fuel now bc).2.pendingTransactions =
        bc.pendingTransactions.drop bc.maxTransactionsPerBlock ∧
      (mineNextBlock e fuel now bc).2.chain = bc.chain ++ [b] ∧
      (bc.pendingTransactions.take bc.maxTransactionsPerBlock).length =
        min bc.maxTransactionsPerBlock bc.pendingTransactions.length) :=
  mineNextBlock_mined_spec e fuel now bc b

/-- Witness for C5: submitting `r1..r10` with a batch bound of 3 and mining
three times yields batches `[r1,r2,r3]`, `[r4,r5,r6]`, `[r7,r8,r9]` in
that order, leaving exactly `r10` pending. -/
theorem mineNextBlock_fifo_batching_witness :
    bW1.data = .mk "transaction_batch" (.batch [rRec 1, rRec 2, rRec 3]) [] 0 ∧
    bW2.data = .mk "transaction_batch" (.batch [rRec 4, rRec 5, rRec 6]) [] 0 ∧
    bW3.data = .mk "transaction_batch" (.batch [rRec 7, rRec 8, rRec 9]) [] 0 ∧
    bcP3.pendingTransactions = [rRec 10] ∧
    getPendingTransactionsCount bcP3 = 1 := by
  refine ⟨?_, ?_, ?_, ?_, rfl⟩
  · exact ((mineNextBlock_fifo_batching envId 0 1 bcPool bW1).2 rfl).1
  · exact ((mineNextBlock_fifo_batching envId 0 2 bcP1 bW2).2 rfl).1
  · exact ((mineNextBlock_fifo_batching envId 0 3 bcP2 bW3).2 rfl).1
  · exact ((mineNextBlock_fifo_batching envId 0 3 bcP2 bW3).2 rfl).2.1

/-! ## C9: addBlock is submit-then-mine -/

/-- Claim C9: `addBlock` is exactly `addTransaction` followed by one
`mineNextBlock`; when the call completes, the mined batch is the head
`take` of the pool with the new record appended last, so the returned
block's batch contains the submitted record iff fewer than
`maxTransactionsPerBlock` records were already pending — while with a full
pool the block consists solely of earlier records and the new record stays
pending. -/
theorem addBlock_submit_then_mine (e : Env) (fuel : Nat) (now : Int) (bc : Blockchain)
    (data : BlockData) (b : Block) :
    addBlock e fuel now bc data = mineNextBlock e fuel now (addTransaction bc data) ∧
    ((addBlock e fuel now bc data).1 = .mined b →
      b.data = .mk "transaction_batch"
        (.batch ((bc.pendingTransactions ++ [data]).take bc.maxTransactionsPerBlock)) [] 0 ∧
      (addBlock e fuel now bc data).2.pendingTransactions =
        (bc.pendingTransactions ++ [data]).drop bc.maxTransactionsPerBlock ∧
      (bc.pendingTransactions.length < bc.maxTransactionsPerBlock →
        b.data = .mk "transaction_batch" (.batch (bc.pendingTransactions ++ [data])) [] 0) ∧
      (bc.maxTransactionsPerBlock ≤ bc.pendingTransactions.length →
        b.data = .mk "transaction_batch"
          (.batch (bc.pendingTransactions.take bc.maxTransactionsPerBlock)) [] 0 ∧
        data ∈ (addBlock e fuel now bc data).2.pendingTransactions) ∧
      (data ∉ bc.pendingTransactions →
        ((∃ l, b.data = .mk "transaction_batch" (.batch l) [] 0 ∧ data ∈ l) ↔
          bc.pendingTransactions.length < bc.maxTransactionsPerBlock))) := by
  refine ⟨rfl, fun h => ?_⟩
  have hs := (mineNextBlock_mined_spec e fuel now (addTransaction bc data) b).2 h
  have hpend : (addTransaction bc data).pendingTransactions =
      bc.pendingTransactions ++ [data] := rfl
  have hmax : (addTransaction bc data).maxTransactionsPerBlock =
      bc.maxTransactionsPerBlock := rfl
  rw [hpend, hmax] at hs
  rcases hs with ⟨hdata, hpend', -, -⟩
  refine ⟨hdata, hpend', fun hlt => ?_, fun hle => ?_, fun hnotmem => ?_⟩
  · rw [hdata, List.take_of_length_le (by simpa using hlt)]
  · constructor
    · rw [hdata, List.take_append_of_le_length hle]
    · rw [show (addBlock e fuel now bc data).2 = (mineNextBlock e fuel now
          (addTransaction bc data)).2 from rfl, hpend',
        List.drop_append_of_le_length hle]
      exact List.mem_append_right _ (List.mem_singleton.mpr rfl)
  · constructor
    · rintro ⟨l, hl, hmem⟩
      rw [hdata] at hl
      have hlist : (bc.pendingTransactions ++ [data]).take bc.maxTransactionsPerBlock = l := by
        have := (BlockData.mk.injEq _ _ _ _ _ _ _ _).mp hl
        exact (Payload.batch.injEq _ _).mp this.2.1
      by_contra hge
      push_neg at hge
      rw [← hlist, List.take_append_of_le_length hge] at hmem
      exact hnotmem (List.take_subset _ _ hmem)
    · intro hlt
      refine ⟨bc.pendingTransactions ++ [data], ?_,
        List.mem_append_right _ (List.mem_singleton.mpr rfl)⟩
      rw [hdata, List.take_of_length_le (by simpa using hlt)]

/-- Witness for C9 with a full pool: adding `r11` on top of the ten
pending records mines a batch of the three earliest records only, and
`r11` stays pending. -/
theorem addBlock_submit_then_mine_witness :
    bW1.data = .mk "transaction_batch" (.batch [rRec 1, rRec 2, rRec 3]) [] 0 ∧
    rRec 11 ∈ (addBlock envId 0 1 bcPool (rRec 11)).2.pendingTransactions := by
  have h := (addBlock_submit_then_mine envId 0 1 bcPool (rRec 11) bW1).2 rfl
  exact ⟨(h.2.2.2.1 (by decide)).1, (h.2.2.2.1 (by decide)).2⟩

/-! ## C8: peer-set invariants of connectToPeer -/

/-- The self-connection guard of `connectToPeer` holds exactly when the
parsed port is the node's own and the parsed ip is local (the two literal
comparisons are subsumed by `isLocalIP`). -/
theorem selfGuard_iff (n : NetState) (ip : String) (port : Nat) :
    (decide (port = n.port) && (ip == "localhost" || ip == "127.0.0.1" || isLocalIP ip)) = true ↔
      port = n.port ∧ isLocalIP ip = true := by
  simp only [isLocalIP, Bool.and_eq_true, Bool.or_eq_true, beq_iff_eq, decide_eq_true_eq]
  constructor
  · rintro ⟨h1, h2⟩
    exact ⟨h1, by tauto⟩
  · rintro ⟨h1, h2⟩
    exact ⟨h1, by tauto⟩

/-- The function `connectToPeer` either leaves the state untouched (not running, parse
failure, self-connection, already connected) or appends the parsed
normalized address, which passed the self-check and was not yet
connected. -/
theorem connectToPeer_cases (n : NetState) (address : String) :
    (connectToPeer n address).2 = n ∨
    ∃ ip port, parseAddress address = some (ip, port) ∧
      ¬(port = n.port ∧ isLocalIP ip = true) ∧
      nodeAddr ip port ∉ n.connectedPeers ∧
      (connectToPeer n address).2 =
        { n with connectedPeers := n.connectedPeers ++ [nodeAddr ip port] } := by
  unfold connectToPeer
  by_cases hr : n.isRunning
  · rcases hp : parseAddress address with _ | ⟨ip, port⟩
    · simp [hr, hp]
    · by_cases hg : (decide (port = n.port) &&
        (ip == "localhost" || ip == "127.0.0.1" || isLocalIP ip)) = true
      · simp [hr, hp, hg]
      · by_cases hc : nodeAddr ip port ∈ n.connectedPeers
        · simp [hr, hp, hg, hc]
        · right
          refine ⟨ip, port, rfl, fun hself => hg ((selfGuard_iff n ip port).mpr hself), hc, ?_⟩
          simp [hr, hg, hc]
  · simp [hr]

/-- Claim C8: a connect call that resolves to the node's own listen port
on a local IP is rejected with no state change; a connect call for an
address already in the peer set is a no-op; and the peer set's two
invariants — it never contains a local multiaddr on the node's own port,
and it never contains duplicates — are preserved by every call. -/
theorem connectToPeer_self_dup_invariants (n : NetState) (address : String) :
    (∀ ip port, parseAddress address = some (ip, port) → n.isRunning = true →
      isLocalIP ip = true → port = n.port →
      connectToPeer n address = (.selfConnection, n)) ∧
    (∀ ip port, parseAddress address = some (ip, port) →
      nodeAddr ip port ∈ n.connectedPeers →
      (connectToPeer n address).2 = n) ∧
    (noSelfPeer n → noSelfPeer (connectToPeer n address).2) ∧
    (n.connectedPeers.Nodup → (connectToPeer n address).2.connectedPeers.Nodup) := by
  refine ⟨?selfCase, ?dupCase, ?noSelfInv, ?nodupInv⟩
  case selfCase =>
    intro ip port hp hrun hloc hport
    have hg : (decide (port = n.port) &&
        (ip == "localhost" || ip == "127.0.0.1" || isLocalIP ip)) = true :=
      (selfGuard_iff n ip port).mpr ⟨hport, hloc⟩
    simp [connectToPeer, hp, hrun, hg]
  case dupCase =>
    intro ip port hp hmem
    unfold connectToPeer
    by_cases hr : n.isRunning
    · by_cases hg : (decide (port = n.port) &&
        (ip == "localhost" || ip == "127.0.0.1" || isLocalIP ip)) = true
      · simp [hr, hp, hg]
      · simp [hr, hp, hg, hmem]
    · simp [hr]
  case noSelfInv =>
    intro hns
    rcases connectToPeer_cases n address with heq | ⟨ip, port, -, hguard, -, heq⟩
    · rw [heq]
      exact hns
    · intro ip' hloc' hmem
      rw [heq] at hmem
      have hport : ({ n with connectedPeers := n.connectedPeers ++ [nodeAddr ip port] }
          : NetState).port = n.port := rfl
      rw [hport] at hmem
      rcases List.mem_append.mp hmem with hold | hnew
      · exact hns ip' hloc' hold
      · have heq2 : nodeAddr ip port = nodeAddr ip' n.port :=
          (List.mem_singleton.mp hnew).symm
        rcases nodeAddr_own_inj ip port ip' n.port hloc' heq2 with ⟨rfl, rfl⟩
        exact hguard ⟨rfl, hloc'⟩
  case nodupInv =>
    intro hnd
    rcases connectToPeer_cases n address with heq | ⟨ip, port, -, -, hnotmem, heq⟩
    · rw [heq]
      exact hnd
    · rw [heq]
      simp only [List.nodup_append, List.nodup_cons, List.not_mem_nil, not_false_iff,
        List.nodup_nil, and_true, true_and]
      exact ⟨hnd, by simpa using fun hmem => hnotmem hmem⟩

/-- Witness for C8: a node listening on port 5 rejects `127.0.0.1:5`
without touching its peer set, and a second connect to an
already-connected peer leaves the peer set unchanged. -/
theorem connectToPeer_self_dup_invariants_witness :
    connectToPeer ⟨true, 5, []⟩ "127.0.0.1:5" = (.selfConnection, ⟨true, 5, []⟩) ∧
    (connectToPeer ⟨true, 5, ["/ip4/1.2.3.4/tcp/6"]⟩ "1.2.3.4:6").2 =
      ⟨true, 5, ["/ip4/1.2.3.4/tcp/6"]⟩ := by
  constructor
  · exact (connectToPeer_self_dup_invariants ⟨true, 5, []⟩ "127.0.0.1:5").1
      "127.0.0.1" 5 (by decide) rfl rfl rfl
  · exact (connectToPeer_self_dup_invariants ⟨true, 5, ["/ip4/1.2.3.4/tcp/6"]⟩ "1.2.3.4:6").2.1
      "1.2.3.4" 6 (by decide) (by simp [nodeAddr]; decide)

/-! ## C6 and C10: asset ledger arithmetic -/

/-- Updating one entry of a balance map shifts the sum of the balances
over any duplicate-free list of addresses containing it by the delta. -/
theorem sum_map_updateBalance (bal : String → String → ℚ) (assetId x : String) (c : ℚ) :
    ∀ (addrs : List String), addrs.Nodup → x ∈ addrs →
      (addrs.map (fun a => updateBalance bal assetId x c assetId a)).sum =
        (addrs.map (fun a => bal assetId a)).sum + c := by
  intro addrs
  induction addrs with
  | nil => intro _ hx; simp at hx
  | cons h t ih =>
    intro hnd hx
    rcases List.nodup_cons.mp hnd with ⟨hht, hndt⟩
    rcases List.mem_cons.mp hx with rfl | hxt
    · have htail : ∀ a ∈ t, updateBalance bal assetId x c assetId a = bal assetId a := by
        intro a ha
        have hax : a ≠ x := fun h => hht (h ▸ ha)
        simp [updateBalance, hax]
      rw [List.map_cons, List.map_cons, List.sum_cons, List.sum_cons,
        List.map_congr_left htail]
      simp [updateBalance]
      ring
    · have hhx : h ≠ x := fun hh => hht (hh ▸ hxt)
      rw [List.map_cons, List.map_cons, List.sum_cons, List.sum_cons, ih hndt hxt]
      simp [updateBalance, hhx]
      ring

/-- Claim C6: a successful mint credits the recipient by the amount,
touches no other balance and leaves every asset definition — hence
`totalSupply` — unchanged; a successful burn debits the source, decrements
the definition's `totalSupply` and persists the updated definition; and a
transfer of more than the sender's balance fails with the whole state
unchanged. -/
theorem assetOps_arithmetic (e : Env) (s : AMState) (assetId fromA toA : String)
    (amount : ℚ) (now : Int) (asset : Asset) :
    (s.assets assetId = some asset → toA ≠ "" → 0 < amount →
      (mintAsset e s assetId toA amount now).2.balances assetId toA =
        s.balances assetId toA + amount ∧
      (∀ a addr, ¬(a = assetId ∧ addr = toA) →
        (mintAsset e s assetId toA amount now).2.balances a addr = s.balances a addr) ∧
      (mintAsset e s assetId toA amount now).2.assets = s.assets ∧
      (∃ tx, (mintAsset e s assetId toA amount now).1 = .ok tx)) ∧
    (s.assets assetId = some asset → fromA ≠ "" → 0 < amount →
      amount ≤ s.balances assetId fromA →
      (burnAsset e s assetId fromA amount now).2.balances assetId fromA =
        s.balances assetId fromA - amount ∧
      (∀ a addr, ¬(a = assetId ∧ addr = fromA) →
        (burnAsset e s assetId fromA amount now).2.balances a addr = s.balances a addr) ∧
      (burnAsset e s assetId fromA amount now).2.assets assetId =
        some { asset with totalSupply := asset.totalSupply - amount } ∧
      (burnAsset e s assetId fromA amount now).2.assetsDisk assetId =
        some { asset with totalSupply := asset.totalSupply - amount } ∧
      (∃ tx, (burnAsset e s assetId fromA amount now).1 = .ok tx)) ∧
    (s.balances assetId fromA < amount →
      (∃ err, (transferAsset e s assetId fromA toA amount now).1 = .error err) ∧
      (transferAsset e s assetId fromA toA amount now).2 = s) := by
  refine ⟨?mintCase, ?burnCase, ?overdraw⟩
  case mintCase =>
    intro hA hto hamt
    have hne : ¬ amount ≤ 0 := not_le.mpr hamt
    refine ⟨?_, ?_, ?_, ?_⟩
    · simp [mintAsset, hA, hto, hne, updateBalance]
    · intro a addr hne2
      simp [mintAsset, hA, hto, hne, updateBalance, hne2]
    · simp [mintAsset, hA, hto, hne]
    · rcases hres : (mintAsset e s assetId toA amount now).1 with err | tx
      · exfalso
        simp [mintAsset, hA, hto, hne] at hres
      · exact ⟨tx, rfl⟩
  case burnCase =>
    intro hA hfrom hamt hbal
    have hne : ¬ amount ≤ 0 := not_le.mpr hamt
    have hnlt : ¬ getBalance s assetId fromA < amount := not_lt.mpr hbal
    refine ⟨?_, ?_, ?_, ?_, ?_⟩
    · simp [burnAsset, hA, hfrom, hne, hnlt, updateBalance]
      ring
    · intro a addr hne2
      simp [burnAsset, hA, hfrom, hne, hnlt, updateBalance, hne2]
    · simp [burnAsset, hA, hfrom, hne, hnlt]
    · simp [burnAsset, hA, hfrom, hne, hnlt]
    · rcases hres : (burnAsset e s assetId fromA amount now).1 with err | tx
      · exfalso
        simp [burnAsset, hA, hfrom, hne, hnlt] at hres
      · exact ⟨tx, rfl⟩
  case overdraw =>
    intro hover
    rcases hA : s.assets assetId with _ | asset0
    · exact ⟨⟨.assetNotFound, by simp [transferAsset, hA]⟩, by simp [transferAsset, hA]⟩
    · by_cases haddr : fromA = "" ∨ toA = ""
      · exact ⟨⟨.invalidAddress, by simp [transferAsset, hA, haddr]⟩,
          by simp [transferAsset, hA, haddr]⟩
      · by_cases hneg : amount ≤ 0
        · exact ⟨⟨.invalidAmount, by simp [transferAsset, hA, haddr, hneg]⟩,
            by simp [transferAsset, hA, haddr, hneg]⟩
        · have hlt : getBalance s assetId fromA < amount := hover
          exact ⟨⟨.insufficientBalance, by simp [transferAsset, hA, haddr, hneg, hlt]⟩,
            by simp [transferAsset, hA, haddr, hneg, hlt]⟩

/-- Witness for C6: on the concrete one-asset state, minting 300 to `D`
credits `D`, burning 100 from `C` drops the persisted `totalSupply` to
900, and transferring 2000 out of `C`'s 1000 fails without touching the
state. -/
theorem assetOps_arithmetic_witness :
    (mintAsset envId sW "AST1" "D" 300 1).2.balances "AST1" "D" =
      sW.balances "AST1" "D" + 300 ∧
    (burnAsset envId sW "AST1" "C" 100 1).2.assets "AST1" =
      some { assetW with totalSupply := assetW.totalSupply - 100 } ∧
    (transferAsset envId sW "AST1" "C" "D" 2000 1).2 = sW := by
  have h := assetOps_arithmetic envId sW "AST1" "C" "D" 300 1 assetW
  have hb := assetOps_arithmetic envId sW "AST1" "C" "D" 100 1 assetW
  have ht := assetOps_arithmetic envId sW "AST1" "C" "D" 2000 1 assetW
  refine ⟨?_, ?_, ?_⟩
  · exact (h.1 rfl (by decide) (by norm_num)).1
  · exact (hb.2.1 rfl (by decide) (by norm_num)
      (by norm_num [sW])).2.2.1
  · exact (ht.2.2 (by norm_num [sW])).2

/-- Claim C10: a successful transfer moves the amount from sender to
recipient, so the sum of the asset's balances over any duplicate-free
address list containing both is unchanged; and a self-transfer with
sufficient balance succeeds and leaves every balance exactly as it was. -/
theorem transfer_sum_preserved (e : Env) (s : AMState) (assetId fromA toA : String)
    (amount : ℚ) (now : Int) (asset : Asset)
    (hA : s.assets assetId = some asset) (hfrom : fromA ≠ "") (hto : toA ≠ "")
    (hamt : 0 < amount) (hbal : amount ≤ s.balances assetId fromA) :
    (∃ tx, (transferAsset e s assetId fromA toA amount now).1 = .ok tx) ∧
    (∀ addrs : List String, addrs.Nodup → fromA ∈ addrs → toA ∈ addrs →
      (addrs.map (fun a => (transferAsset e s assetId fromA toA amount now).2.balances assetId a)).sum =
        (addrs.map (fun a => s.balances assetId a)).sum) ∧
    (fromA = toA → ∀ a addr,
      (transferAsset e s assetId fromA toA amount now).2.balances a addr =
        s.balances a addr) := by
  have haddr : ¬(fromA = "" ∨ toA = "") := by
    rintro (h | h)
    · exact hfrom h
    · exact hto h
  have hneg : ¬ amount ≤ 0 := not_le.mpr hamt
  have hnlt : ¬ getBalance s assetId fromA < amount := not_lt.mpr hbal
  have hbal2 : (transferAsset e s assetId fromA toA amount now).2.balances =
      updateBalance (updateBalance s.balances assetId fromA (-amount)) assetId toA amount := by
    simp [transferAsset, hA, haddr, hneg, hnlt]
  refine ⟨?_, ?_, ?_⟩
  · rcases hres : (transferAsset e s assetId fromA toA amount now).1 with err | tx
    · exfalso
      simp [transferAsset, hA, haddr, hneg, hnlt] at hres
    · exact ⟨tx, rfl⟩
  · intro addrs hnd hf ht
    rw [hbal2]
    rw [sum_map_updateBalance (updateBalance s.balances assetId fromA (-amount))
      assetId toA amount addrs hnd ht]
    rw [sum_map_updateBalance s.balances assetId fromA (-amount) addrs hnd hf]
    ring
  · rintro rfl a addr
    rw [hbal2]
    by_cases hsame : a = assetId ∧ addr = fromA
    · simp [updateBalance, hsame]
    · simp [updateBalance, hsame]

/-- Witness for C10: a self-transfer of 200 by `C` (who holds 1000)
succeeds and leaves `C`'s balance at exactly its old value. -/
theorem transfer_sum_preserved_witness :
    (∃ tx, (transferAsset envId sW "AST1" "C" "C" 200 1).1 = .ok tx) ∧
    (transferAsset envId sW "AST1" "C" "C" 200 1).2.balances "AST1" "C" =
      sW.balances "AST1" "C" := by
  have h := transfer_sum_preserved envId sW "AST1" "C" "C" 200 1 assetW rfl
    (by decide) (by decide) (by norm_num) (by norm_num [sW])
  exact ⟨h.1, h.2.2 rfl "AST1" "C"⟩

/-! ## C7: replay equivalence of calculateBalances -/

/-- The function `applyAssetTxBal` consults the asset table only for key membership. -/
theorem applyAssetTxBal_congr (a1 a2 : String → Option Asset)
    (hsome : ∀ id, (a1 id).isSome = (a2 id).isSome) (bal : String → String → ℚ)
    (d : BlockData) : applyAssetTxBal a1 bal d = applyAssetTxBal a2 bal d := by
  unfold applyAssetTxBal
  rcases d.payload with _ | t | _ | _
  · rfl
  · simp only [knownAsset, hsome]
  · rfl
  · rfl

/-- The function `replayBalances` consults the asset table only for key membership. -/
theorem replayBalances_congr (a1 a2 : String → Option Asset)
    (hsome : ∀ id, (a1 id).isSome = (a2 id).isSome) (txs : List BlockData) :
    replayBalances a1 txs = replayBalances a2 txs := by
  unfold replayBalances
  induction txs using List.reverseRecOn with
  | nil => rfl
  | append_singleton l d ih =>
    rw [List.foldl_append, List.foldl_append, ih]
    simp only [List.foldl_cons, List.foldl_nil]
    exact applyAssetTxBal_congr a1 a2 hsome _ d

/-- The chain lookup distributes over chain concatenation. -/
theorem getTransactionsByType_append (t : String) (c1 c2 : List Block) :
    getTransactionsByType t (c1 ++ c2) =
      getTransactionsByType t c1 ++ getTransactionsByType t c2 := by
  simp [getTransactionsByType]

/-- The `asset_transaction` records contributed by one freshly mined batch
block are exactly the `asset_transaction` records of the batch. -/
theorem getTransactionsByType_batch (b : Block) (l : List BlockData)
    (hd : b.data = .mk "transaction_batch" (.batch l) [] 0) :
    getTransactionsByType "asset_transaction" [b] = assetTxFilter l := by
  unfold getTransactionsByType assetTxFilter
  simp [hd, BlockData.rtype, BlockData.payload]

/-- The function `mineNextBlock` either leaves the blockchain state untouched or mines
a batch block. -/
theorem mineNextBlock_cases (e : Env) (fuel : Nat) (now : Int) (bc : Blockchain) :
    (mineNextBlock e fuel now bc).2 = bc ∨
    ∃ b, (mineNextBlock e fuel now bc).1 = MineResult.mined b := by
  unfold mineNextBlock
  by_cases hp : bc.pendingTransactions.isEmpty
  · simp [hp]
  · rcases hgl : getLatestBlock bc with _ | prev
    · simp [hp, hgl]
    · rcases hm : mineAux e bc.difficulty fuel
        (newBlock e now
          (.mk "transaction_batch"
            (.batch (bc.pendingTransactions.take bc.maxTransactionsPerBlock)) [] 0)
          prev.hash) with _ | b0
      · simp [hp, hgl, hm]
      · right
        exact ⟨b0, by simp [hp, hgl, hm]⟩

/-- The function `mintAsset` either throws before mutating or performs exactly the
audit-record push and the credit. -/
theorem mintAsset_cases (e : Env) (s : AMState) (assetId toA : String) (amount : ℚ)
    (now : Int) :
    (mintAsset e s assetId toA amount now).2 = s ∨
    ∃ asset, s.assets assetId = some asset ∧
      (mintAsset e s assetId toA amount now).2 =
        { s with
          blockchain := addTransaction s.blockchain (assetTxRecord e
            ⟨.mint, assetId, "", toA, amount, now,
              some (signAssetTx e ⟨.mint, assetId, "", toA, amount, now, none⟩)⟩),
          balances := updateBalance s.balances assetId toA amount } := by
  unfold mintAsset
  rcases hA : s.assets assetId with _ | asset
  · simp
  · by_cases hto : toA = ""
    · simp [hto]
    · by_cases hamt : amount ≤ 0
      · simp [hto, hamt]
      · right
        exact ⟨asset, rfl, by simp [hto, hamt]⟩

/-- The function `transferAsset` either throws before mutating or performs exactly the
audit-record push, the debit and the credit. -/
theorem transferAsset_cases (e : Env) (s : AMState) (assetId fromA toA : String)
    (amount : ℚ) (now : Int) :
    (transferAsset e s assetId fromA toA amount now).2 = s ∨
    ∃ asset, s.assets assetId = some asset ∧
      (transferAsset e s assetId fromA toA amount now).2 =
        { s with
          blockchain := addTransaction s.blockchain (assetTxRecord e
            ⟨.transfer, assetId, fromA, toA, amount, now,
              some (signAssetTx e ⟨.transfer, assetId, fromA, toA, amount, now, none⟩)⟩),
          balances := updateBalance (updateBalance s.balances assetId fromA (-amount))
            assetId toA amount } := by
  unfold transferAsset
  rcases hA : s.assets assetId with _ | asset
  · simp
  · by_cases haddr : fromA = "" ∨ toA = ""
    · simp [haddr]
    · by_cases hamt : amount ≤ 0
      · simp [haddr, hamt]
      · by_cases hbal : getBalance s assetId fromA < amount
        · simp [haddr, hamt, hbal]
        · right
          exact ⟨asset, rfl, by simp [haddr, hamt, hbal]⟩

/-- The function `burnAsset` either throws before mutating or performs exactly the
audit-record push, the debit and the supply decrement (kept in the asset
table and its persisted mirror). -/
theorem burnAsset_cases (e : Env) (s : AMState) (assetId fromA : String) (amount : ℚ)
    (now : Int) :
    (burnAsset e s assetId fromA amount now).2 = s ∨
    ∃ asset, s.assets assetId = some asset ∧
      (burnAsset e s assetId fromA amount now).2 =
        { s with
          blockchain := addTransaction s.blockchain (assetTxRecord e
            ⟨.burn, assetId, fromA, "", amount, now,
              some (signAssetTx e ⟨.burn, assetId, fromA, "", amount, now, none⟩)⟩),
          balances := updateBalance s.balances assetId fromA (-amount),
          assets := fun x => if x = assetId then
            some { asset with totalSupply := asset.totalSupply - amount } else s.assets x,
          assetsDisk := fun x => if x = assetId then
            some { asset with totalSupply := asset.totalSupply - amount } else s.assetsDisk x } := by
  unfold burnAsset
  rcases hA : s.assets assetId with _ | asset
  · simp
  · by_cases hfrom : fromA = ""
    · simp [hfrom]
    · by_cases hamt : amount ≤ 0
      · simp [hfrom, hamt]
      · by_cases hbal : getBalance s assetId fromA < amount
        · simp [hfrom, hamt, hbal]
        · right
          exact ⟨asset, rfl, by simp [hfrom, hamt, hbal]⟩

/-- One ledger event preserves the replay invariant: failed operations
mutate nothing, successful ones append to the audit trail exactly the
delta they apply to the balances, and mining only moves records from the
pool side of the trail to the chain side. -/
theorem applyEvent_preserves_inv (e : Env) (s : AMState) (ev : LedgerEvent)
    (hinv : BalReplayInv s) : BalReplayInv (applyEvent e s ev) := by
  cases ev with
  | mine fuel now =>
    show BalReplayInv { s with blockchain := (mineNextBlock e fuel now s.blockchain).2 }
    rcases mineNextBlock_cases e fuel now s.blockchain with heq | ⟨b, hb⟩
    · unfold BalReplayInv chainAssetTxs at hinv ⊢
      simpa [heq] using hinv
    · have hs := (mineNextBlock_mined_spec e fuel now s.blockchain b).2 hb
      rcases hs with ⟨hdata, hpend, hchain, -⟩
      unfold BalReplayInv chainAssetTxs at hinv ⊢
      simp only [hpend, hchain]
      rw [getTransactionsByType_append, getTransactionsByType_batch b _ hdata]
      have hsplit : assetTxFilter
            (s.blockchain.pendingTransactions.take s.blockchain.maxTransactionsPerBlock) ++
          assetTxFilter
            (s.blockchain.pendingTransactions.drop s.blockchain.maxTransactionsPerBlock) =
          assetTxFilter s.blockchain.pendingTransactions := by
        unfold assetTxFilter
        rw [← List.filter_append, List.take_append_drop]
      rw [List.append_assoc, hsplit]
      exact hinv
  | op op =>
    rcases op with ⟨assetId, toA, amount, now⟩ | ⟨assetId, fromA, toA, amount, now⟩ |
      ⟨assetId, fromA, amount, now⟩
    · show BalReplayInv (mintAsset e s assetId toA amount now).2
      rcases mintAsset_cases e s assetId toA amount now with heq | ⟨asset, hA, heq⟩
      · rw [heq]
        exact hinv
      · rw [heq]
        unfold BalReplayInv chainAssetTxs at hinv ⊢
        simp only [addTransaction]
        have hrec : assetTxFilter (s.blockchain.pendingTransactions ++
            [assetTxRecord e ⟨.mint, assetId, "", toA, amount, now,
              some (signAssetTx e ⟨.mint, assetId, "", toA, amount, now, none⟩)⟩]) =
            assetTxFilter s.blockchain.pendingTransactions ++
            [assetTxRecord e ⟨.mint, assetId, "", toA, amount, now,
              some (signAssetTx e ⟨.mint, assetId, "", toA, amount, now, none⟩)⟩] := by
          unfold assetTxFilter
          rw [List.filter_append]
          rfl
        rw [hrec, ← List.append_assoc]
        unfold replayBalances
        rw [List.foldl_append]
        simp only [List.foldl_cons, List.foldl_nil]
        rw [← replayBalances]
        rw [← hinv]
        unfold applyAssetTxBal
        simp only [assetTxRecord, BlockData.payload, knownAsset, hA, Option.isSome_some,
          if_true]
    · show BalReplayInv (transferAsset e s assetId fromA toA amount now).2
      rcases transferAsset_cases e s assetId fromA toA amount now with heq | ⟨asset, hA, heq⟩
      · rw [heq]
        exact hinv
      · rw [heq]
        unfold BalReplayInv chainAssetTxs at hinv ⊢
        simp only [addTransaction]
        have hrec : assetTxFilter (s.blockchain.pendingTransactions ++
            [assetTxRecord e ⟨.transfer, assetId, fromA, toA, amount, now,
              some (signAssetTx e ⟨.transfer, assetId, fromA, toA, amount, now, none⟩)⟩]) =
            assetTxFilter s.blockchain.pendingTransactions ++
            [assetTxRecord e ⟨.transfer, assetId, fromA, toA, amount, now,
              some (signAssetTx e ⟨.transfer, assetId, fromA, toA, amount, now, none⟩)⟩] := by
          unfold assetTxFilter
          rw [List.filter_append]
          rfl
        rw [hrec, ← List.append_assoc]
        unfold replayBalances
        rw [List.foldl_append]
        simp only [List.foldl_cons, List.foldl_nil]
        rw [← replayBalances]
        rw [← hinv]
        unfold applyAssetTxBal
        simp only [assetTxRecord, BlockData.payload, knownAsset, hA, Option.isSome_some,
          if_true]
    · show BalReplayInv (burnAsset e s assetId fromA amount now).2
      rcases burnAsset_cases e s assetId fromA amount now with heq | ⟨asset, hA, heq⟩
      · rw [heq]
        exact hinv
      · rw [heq]
        unfold BalReplayInv chainAssetTxs at hinv ⊢
        simp only [addTransaction]
        have hrec : assetTxFilter (s.blockchain.pendingTransactions ++
            [assetTxRecord e ⟨.burn, assetId, fromA, "", amount, now,
              some (signAssetTx e ⟨.burn, assetId, fromA, "", amount, now, none⟩)⟩]) =
            assetTxFilter s.blockchain.pendingTransactions ++
            [assetTxRecord e ⟨.burn, assetId, fromA, "", amount, now,
              some (signAssetTx e ⟨.burn, assetId, fromA, "", amount, now, none⟩)⟩] := by
          unfold assetTxFilter
          rw [List.filter_append]
          rfl
        have hcongr : replayBalances (fun x => if x = assetId then
              some { asset with totalSupply := asset.totalSupply - amount } else s.assets x) =
            replayBalances s.assets := by
          funext txs
          apply replayBalances_congr
          intro id
          by_cases hid : id = assetId
          · simp [hid, hA]
          · simp [hid]
        rw [hcongr, hrec, ← List.append_assoc]
        unfold replayBalances
        rw [List.foldl_append]
        simp only [List.foldl_cons, List.foldl_nil]
        rw [← replayBalances]
        rw [← hinv]
        unfold applyAssetTxBal
        simp only [assetTxRecord, BlockData.payload, knownAsset, hA, Option.isSome_some,
          if_true]

/-- The replay invariant is preserved by every event sequence. -/
theorem applyEvents_preserves_inv (e : Env) (s : AMState) (es : List LedgerEvent)
    (hinv : BalReplayInv s) : BalReplayInv (applyEvents e s es) := by
  induction es generalizing s with
  | nil => exact hinv
  | cons ev tl ih => exact ih (applyEvent e s ev) (applyEvent_preserves_inv e s ev hinv)

/-- Counterexample to C7 as stated: on a freshly initialized manager
(genesis chain, nothing pending, zero balances — the replay invariant
holds), one successful mint leaves the recipient's incremental balance at
300, but `calculateBalances` called right away — before the pending
`asset_transaction` record has been mined into a block — resets it to 0:
recomputation does not reproduce the incremental state while records are
still in the pool. -/
theorem recompute_unmined_counterexample :
    BalReplayInv sWZ ∧
    (∃ tx, (mintAsset envId sWZ "AST1" "D" 300 1).1 = .ok tx) ∧
    (mintAsset envId sWZ "AST1" "D" 300 1).2.balances "AST1" "D" = 300 ∧
    (calculateBalances ((mintAsset envId sWZ "AST1" "D" 300 1).2)).balances "AST1" "D" = 0 := by
  refine ⟨rfl, ⟨_, rfl⟩, ?_, rfl⟩
  show (0 : ℚ) + 300 = 300
  norm_num

/-- Claim C7, amended: for every event sequence of incremental
mint / transfer / burn operations interleaved with mining, started from a
state satisfying the replay invariant (e.g. a freshly initialized
manager), if at the end the pool holds no unmined `asset_transaction`
records (auto-mining drains it), then `calculateBalances` reproduces the
incrementally maintained balances exactly; and `calculateBalances` is
idempotent unconditionally. -/
theorem replay_equivalence (e : Env) (s0 : AMState) (es : List LedgerEvent)
    (hinv : BalReplayInv s0)
    (hdrained : assetTxFilter (applyEvents e s0 es).blockchain.pendingTransactions = []) :
    (calculateBalances (applyEvents e s0 es)).balances = (applyEvents e s0 es).balances ∧
    (∀ s : AMState, calculateBalances (calculateBalances s) = calculateBalances s) := by
  constructor
  · have hfin := applyEvents_preserves_inv e s0 es hinv
    unfold BalReplayInv chainAssetTxs at hfin
    rw [hdrained, List.append_nil] at hfin
    exact hfin.symm
  · intro s
    rfl

/-- Witness for C7: minting 300 to `D` and then mining the pool empty
leaves a state whose recomputed balances coincide with the incremental
ones. -/
theorem replay_equivalence_witness :
    (calculateBalances (applyEvents envId sWZ
        [.op (.mint "AST1" "D" 300 1), .mine 0 2])).balances =
      (applyEvents envId sWZ [.op (.mint "AST1" "D" 300 1), .mine 0 2]).balances :=
  (replay_equivalence envId sWZ [.op (.mint "AST1" "D" 300 1), .mine 0 2] rfl rfl).1

/-! ## C4: chain validity across construction, mining, import and reload -/

/-- Appending a block that passes the three per-block checks against the
chain's last element preserves the validity walk. -/
theorem isChainValidFrom_append (e : Env) :
    ∀ (rest : List Block) (g latest b : Block),
      isChainValidFrom e g rest = true →
      (g :: rest).getLast? = some latest →
      chainStepOk e latest b = true →
      isChainValidFrom e g (rest ++ [b]) = true := by
  intro rest
  induction rest with
  | nil =>
    intro g latest b hv hlast hstep
    simp only [List.getLast?_singleton, Option.some.injEq] at hlast
    subst hlast
    simp [isChainValidFrom, hstep]
  | cons x xs ih =>
    intro g latest b hv hlast hstep
    rw [List.getLast?_cons_cons] at hlast
    simp only [isChainValidFrom, Bool.and_eq_true] at hv
    simp only [List.cons_append, isChainValidFrom, Bool.and_eq_true]
    exact ⟨hv.1, ih x latest b hv.2 hlast hstep⟩

/-- The validity walk from index 1 is the chain of the three per-block
checks over consecutive pairs. -/
theorem isChainValidFrom_iff_chain (e : Env) :
    ∀ (rest : List Block) (g : Block),
      isChainValidFrom e g rest = true ↔
        List.Chain' (fun p c => chainStepOk e p c = true) (g :: rest) := by
  intro rest
  induction rest with
  | nil => intro g; simp [isChainValidFrom]
  | cons x xs ih =>
    intro g
    rw [List.chain'_cons]
    simp only [isChainValidFrom, Bool.and_eq_true]
    exact and_congr Iff.rfl (ih x)

/-- A completed `mineNextBlock` call mines a block that passes the three
per-block checks against the previous tip. -/
theorem mineNextBlock_mined_valid (e : Env) (fuel : Nat) (now : Int) (bc : Blockchain)
    (b : Block) (h : (mineNextBlock e fuel now bc).1 = .mined b) :
    ∃ latest, getLatestBlock bc = some latest ∧ chainStepOk e latest b = true := by
  rcases hp : bc.pendingTransactions with _ | ⟨ptx, ptl⟩
  · rw [mineNextBlock] at h
    simp [hp] at h
  · rcases hgl : getLatestBlock bc with _ | prev
    · rw [mineNextBlock] at h
      simp [hp, hgl] at h
    · rcases hm : mineAux e bc.difficulty fuel
        (newBlock e now
          (.mk "transaction_batch"
            (.batch (bc.pendingTransactions.take bc.maxTransactionsPerBlock)) [] 0)
          prev.hash) with _ | b0
      · rw [mineNextBlock] at h
        rw [hp] at hm
        simp [hp, hgl, hm] at h
      · rw [mineNextBlock] at h
        rw [hp] at hm
        simp only [hp, List.isEmpty_cons, Bool.false_eq_true, if_false, hgl, hm] at h
        cases h
        refine ⟨prev, rfl, ?_⟩
        have hsc := (mineAux_some_spec e bc.difficulty fuel _ _ hm).1
          (newBlock_selfConsistent e now _ prev.hash)
        rcases mineAux_some_fields e bc.difficulty fuel _ _ hm with ⟨hdata, hprev, -⟩
        have hprev' : b.previousHash = prev.hash := hprev
        have hsig : hasEnoughSigs b = true := by
          simp [hasEnoughSigs, hdata, newBlock, BlockData.requiredSigners, BlockData.sigs]
        simp [chainStepOk, hsc, hprev', hsig]

/-- A timestamp-sorted permutation of a strictly timestamp-increasing
block list is that list: with distinct timestamps the reload order is
forced. -/
theorem reload_unique :
    ∀ (blocks loaded : List Block), loaded.Perm blocks →
      blocks.Pairwise (fun a b => a.timestamp < b.timestamp) →
      loaded.Pairwise (fun a b => a.timestamp ≤ b.timestamp) →
      loaded = blocks := by
  intro blocks
  induction blocks with
  | nil =>
    intro loaded hp _ _
    exact hp.eq_nil
  | cons b t ih =>
    intro loaded hp hlt hle
    rcases loaded with _ | ⟨x, xs⟩
    · exact absurd (hp.symm.eq_nil) (by simp)
    · have hxb : x = b := by
        have hx : x ∈ b :: t := hp.subset (List.mem_cons_self x xs)
        rcases List.mem_cons.mp hx with rfl | hxt
        · rfl
        · have hbl : b ∈ x :: xs := hp.symm.subset (List.mem_cons_self b t)
          have hbx : b.timestamp < x.timestamp := (List.pairwise_cons.mp hlt).1 x hxt
          rcases List.mem_cons.mp hbl with rfl | hbxs
          · omega
          · have : x.timestamp ≤ b.timestamp := (List.pairwise_cons.mp hle).1 b hbxs
            omega
      subst hxb
      have htl : xs = t := ih xs (hp.cons_inv) (List.pairwise_cons.mp hlt).2
        (List.pairwise_cons.mp hle).2
      rw [htl]

/-- Counterexample to the reload conjunct of C4 as stated: a chain built
by two successful mining calls inside the same millisecond is valid, but
among the timestamp-sorted reloads of its blocks (`readdirSync` order is
arbitrary, and sorting by the tied timestamps does not restore append
order) there is one on which `isValid()` is false. -/
theorem loadChain_reorder_counterexample :
    isChainValid envId bcC2 = true ∧
    bcC2.chain = [gW, bA, bB] ∧
    IsReloadOf bcC2.chain [gW, bB, bA] ∧
    isChainValid envId (openStoredChain [gW, bB, bA] bcC2.stored 0 1) = false := by
  refine ⟨rfl, rfl, ⟨?_, ?_⟩, rfl⟩
  · show ([gW, bB, bA] : List Block).Perm [gW, bA, bB]
    exact List.Perm.cons gW (List.Perm.swap bA bB [])
  · have h0 : gW.timestamp = 0 := rfl
    have h1 : bA.timestamp = 0 := rfl
    have h2 : bB.timestamp = 0 := rfl
    simp [List.pairwise_cons, h0, h1, h2]

/-- Claim C4, amended: a freshly constructed chain (genesis only) is
valid; validity is preserved by every completed `mineNextBlock` call and
by every accepted `addMinedBlock`; the validity walk checks exactly
self-consistency, previous-hash linkage and signature sufficiency of every
consecutive pair from index 1; and a chain reloaded from the persisted
blocks of a valid chain is valid provided the timestamps are strictly
increasing in chain order — with tied timestamps the reload order is
arbitrary and validity can be lost, which the counterexample exhibits. -/
theorem chain_validity_invariant (e : Env) (bc : Blockchain) (fuel : Nat) (now : Int)
    (b : Block) (blocks loaded : List Block) (d m : Nat) :
    (isChainValid e (openFreshChain e now d m) = true) ∧
    (isChainValid e bc = true → (mineNextBlock e fuel now bc).1 = .mined b →
      isChainValid e (mineNextBlock e fuel now bc).2 = true) ∧
    (isChainValid e bc = true → (addMinedBlock e bc b).1 = .added →
      isChainValid e (addMinedBlock e bc b).2 = true) ∧
    (isChainValid e bc = true ↔
      List.Chain' (fun p c => chainStepOk e p c = true) bc.chain) ∧
    (isChainValid e (openStoredChain blocks blocks d m) = true →
      blocks.Pairwise (fun a b' => a.timestamp < b'.timestamp) →
      IsReloadOf blocks loaded →
      loaded = blocks ∧ isChainValid e (openStoredChain loaded blocks d m) = true) := by
  refine ⟨rfl, ?mined, ?imported, ?characterization, ?reload⟩
  case mined =>
    intro hv hm
    obtain ⟨latest, hlatest, hstep⟩ := mineNextBlock_mined_valid e fuel now bc b hm
    have hchain := ((mineNextBlock_mined_spec e fuel now bc b).2 hm).2.2.1
    rcases hc : bc.chain with _ | ⟨g, rest⟩
    · rw [getLatestBlock, hc] at hlatest
      simp at hlatest
    · rw [isChainValid, hchain, hc, List.cons_append]
      rw [isChainValid, hc] at hv
      rw [getLatestBlock, hc] at hlatest
      exact isChainValidFrom_append e rest g latest b hv hlatest hstep
  case imported =>
    intro hv hadd
    by_cases h1 : blockSelfConsistent e b
    · rcases hgl : getLatestBlock bc with _ | latest
      · rw [addMinedBlock] at hadd
        simp [h1, hgl] at hadd
      · by_cases h2 : b.previousHash = latest.hash
        · by_cases h3 : hasEnoughSigs b
          · have hres : (addMinedBlock e bc b).2 =
                { bc with chain := bc.chain ++ [b], stored := saveBlockFile bc.stored b } := by
              simp [addMinedBlock, h1, hgl, h2, h3]
            rw [hres]
            rcases hc : bc.chain with _ | ⟨g, rest⟩
            · rw [getLatestBlock, hc] at hgl
              simp at hgl
            · rw [isChainValid, hc] at hv
              rw [getLatestBlock, hc] at hgl
              show isChainValidFrom e g (rest ++ [b]) = true
              exact isChainValidFrom_append e rest g latest b hv hgl
                (by simp [chainStepOk, h1, h2, h3])
          · rw [addMinedBlock] at hadd
            simp [h1, hgl, h2, h3] at hadd
        · rw [addMinedBlock] at hadd
          simp [h1, hgl, h2] at hadd
    · rw [addMinedBlock] at hadd
      simp [h1] at hadd
  case characterization =>
    rcases hc : bc.chain with _ | ⟨g, rest⟩
    · rw [isChainValid, hc]
      simp
    · rw [isChainValid, hc]
      exact isChainValidFrom_iff_chain e rest g
  case reload =>
    intro hv hts hrel
    obtain ⟨hperm, hsorted⟩ := hrel
    have heq : loaded = blocks := reload_unique blocks loaded hperm hts hsorted
    subst heq
    exact ⟨rfl, hv⟩

/-- Witness for C4: the concrete pool chain stays valid through a
completed mining call, and the singleton genesis chain reloads to itself
and stays valid. -/
theorem chain_validity_invariant_witness :
    isChainValid envId (mineNextBlock envId 0 1 bcPool).2 = true ∧
    ([gW] : List Block) = [gW] ∧ isChainValid envId (openStoredChain [gW] [gW] 0 10) = true := by
  refine ⟨?_, ?_⟩
  · exact (chain_validity_invariant envId bcPool 0 1 bW1 [gW] [gW] 0 10).2.1 rfl rfl
  · have h := (chain_validity_invariant envId bcPool 0 1 bW1 [gW] [gW] 0 10).2.2.2.2 rfl
      (List.pairwise_singleton _ _) ⟨List.Perm.refl _, List.pairwise_singleton _ _⟩
    exact ⟨h.1, h.2⟩

/-- Witness for C2: a single `valid` response reaches the threshold and
the hash is accepted. -/
theorem checkConsensus_threshold_spec_witness :
    (checkConsensus "h" [("h", [vr .valid])] defaultThreshold).accepted = true := by
  apply (checkConsensus_threshold_spec.1 [("h", [vr .valid])] "h").mpr
  constructor
  · simp [lookupValidations]
  · norm_num [lookupValidations, countValid, vr, defaultThreshold, List.filter,
      beq_valid_valid]

end Nebulus
